import Mathlib

/-!
# Verification of the `raster-fonts` atlas generator

Shallow embedding of the two source files of the repository
(`src/lib.rs`, the metadata model, and `src/main.rs`, the conversion
pipeline) together with proofs of the frozen claims about it.

Modelling conventions:
* `u32`/`usize` pixel coordinates and sizes become `Nat`.  None of the
  arithmetic relevant to the claims can overflow (all quantities are
  bounded by the canvas side or by the 255-pixel rectangle bound that the
  program enforces), so no `% 2^32` reduction is inserted.  The one place
  where a `u32` subtraction could underflow (`output_image_size - h` in the
  packer when `h` exceeds the canvas side) makes the Rust program abort
  (overflow panic in debug, out-of-bounds pixel access after wrapping in
  release); the model's truncated `Nat` subtraction yields an empty scan
  range and hence packing failure, which likewise is not a successful run.
* `f32` coverage and distance values become `ℚ`.  Every distance value
  manipulated by the program is a small integer (a sum of a seed `0`/`P²`
  and odd steps, all bounded by `P² + 255²` for rectangles that pass the
  255-pixel check), hence exactly representable in `f32`, so `f32`
  arithmetic coincides with exact rational arithmetic there; the final
  normalisation/encoding steps are divisions and a rounding whose
  comparisons in the claims are far from any `f32` rounding boundary.
* `f32::round` rounds half away from zero; `as u8` on a (here always
  integral and in-range) float saturates to `[0, 255]`.
* The rasterizer (`rusttype`) is an external collaborator: a glyph's
  coverage mask is modelled as the list of `(x, y, coverage)` triples that
  `glyph.draw` feeds to its callback, and a glyph's input data
  (`h_metrics`, `pixel_bounding_box`) as a `GlyphInput` record.
-/

namespace RasterFonts

/-! ## Rounding and clamping primitives (f32 semantics on exact values) -/

/-- `f32::round`: round half away from zero. -/
def rustRound (q : ℚ) : ℤ :=
  if 0 ≤ q then ⌊q + 1/2⌋ else -⌊-q + 1/2⌋

/-- `as u8` applied to an integral float: saturating conversion to `[0, 255]`. -/
def intToU8 (z : ℤ) : ℕ := (min 255 (max 0 z)).toNat

/-- `.round() as u8` on an `f32` value. -/
def u8Round (q : ℚ) : ℕ := intToU8 (rustRound q)

/-- `f32::clamp(lo, hi)`. -/
def qClamp (q lo hi : ℚ) : ℚ := min hi (max lo q)

/-! ## Metadata model (`src/lib.rs`)

`SourceRect.width`/`height` are `NonZeroU8` in the source; they are
modelled as plain `Nat` (the program only constructs them after checking
`padded_w ≤ 255 ∧ padded_h ≤ 255`, and positivity is immaterial to the
claims).  `x`/`y` are `u16` in the source, again modelled as `Nat` (the
packer only produces coordinates below the canvas side). -/

/-- Coordinates and size of a rendered glyph in the packed bitmap
(`SourceRect` in `src/lib.rs`). -/
structure SourceRect where
  x : ℕ
  y : ℕ
  width : ℕ
  height : ℕ
deriving DecidableEq, Repr

/-- Per-glyph layout record (`BitmapGlyph` in `src/lib.rs`).  The float
metrics are modelled as `ℚ`. -/
structure BitmapGlyph where
  bitmap_source : Option SourceRect
  advance_width : ℚ
  left_side_bearing : ℚ
  ascent : ℚ
deriving DecidableEq, Repr

/-- Pixel-coverage predicate of a rectangle: the set of atlas pixels the
rectangle occupies. -/
def rectCovers (r : SourceRect) (px py : ℕ) : Prop :=
  r.x ≤ px ∧ px < r.x + r.width ∧ r.y ≤ py ∧ py < r.y + r.height

instance (r : SourceRect) (px py : ℕ) : Decidable (rectCovers r px py) := by
  unfold rectCovers; infer_instance

/-- The rectangle lies entirely within the `[0, S) × [0, S)` canvas. -/
def rectInCanvas (S : ℕ) (r : SourceRect) : Prop :=
  ∀ px py, rectCovers r px py → px < S ∧ py < S

/-- Two rectangles have disjoint pixel-coverage sets. -/
def rectDisjoint (r₁ r₂ : SourceRect) : Prop :=
  ∀ px py, ¬(rectCovers r₁ px py ∧ rectCovers r₂ px py)

/-! ## The rectangle packer (`src/main.rs`, lines 178–219)

The occupancy grid is the output image buffer itself: candidate positions
are rejected when any covered pixel is non-zero, and accepted rectangles
are marked by writing `0xFF` over their pixels. -/

/-- Write one pixel of a canvas (`outbuf.put_pixel`). -/
def setPix (buf : ℕ → ℕ → ℕ) (px py v : ℕ) : ℕ → ℕ → ℕ :=
  fun a b => if a = px ∧ b = py then v else buf a b

/-- The cheap four-corner pre-check (`src/main.rs` lines 182–187). -/
def cornersFree (buf : ℕ → ℕ → ℕ) (tx ty w h : ℕ) : Bool :=
  !(buf tx ty != 0 || buf (tx + w - 1) ty != 0 ||
    buf tx (ty + h - 1) != 0 || buf (tx + w - 1) (ty + h - 1) != 0)

/-- The authoritative full interior scan (`src/main.rs` lines 191–197):
every pixel the rectangle would cover must currently be zero. -/
def interiorFree (buf : ℕ → ℕ → ℕ) (tx ty w h : ℕ) : Bool :=
  (List.range h).all fun ity =>
    (List.range w).all fun itx => buf (tx + itx) (ty + ity) == 0

/-- Mark all pixels of an accepted rectangle with `0xFF`
(`src/main.rs` lines 199–203). -/
def markRect (buf : ℕ → ℕ → ℕ) (tx ty w h : ℕ) : ℕ → ℕ → ℕ :=
  (List.range h).foldl
    (fun cv ity =>
      (List.range w).foldl (fun cv2 itx => setPix cv2 (tx + itx) (ty + ity) 0xFF) cv)
    buf

/-- Row-major scan for the first valid top-left position
(`src/main.rs` lines 180–198): `ty` outer over `0..(S - h)`, `tx` inner
over `0..(S - w)`, both end-exclusive as in the source. -/
def findPos (buf : ℕ → ℕ → ℕ) (S w h : ℕ) : Option (ℕ × ℕ) :=
  (List.range (S - h)).findSome? fun ty =>
    ((List.range (S - w)).find? fun tx =>
      cornersFree buf tx ty w h && interiorFree buf tx ty w h).map
      fun tx => (tx, ty)

/-- The placement loop (`'glyph_placement`, lines 179–219): place each
`(glyph_id, w, h)` box in order, threading the occupancy canvas; `none`
models the fatal "Failed to pack all glyphs!" exit. -/
def packGlyphs (S : ℕ) : List (ℕ × ℕ × ℕ) → (ℕ → ℕ → ℕ) →
    Option (List (ℕ × SourceRect))
  | [], _ => some []
  | (gid, w, h) :: rest, buf =>
    match findPos buf S w h with
    | none => none
    | some (tx, ty) =>
      (packGlyphs S rest (markRect buf tx ty w h)).map
        fun ps => (gid, ⟨tx, ty, w, h⟩) :: ps

/-- Stable insertion into a list sorted by descending area: the new
element goes after every element of strictly larger area and before the
first element of equal or smaller area. -/
def insertByArea (a : ℕ × ℕ × ℕ) : List (ℕ × ℕ × ℕ) → List (ℕ × ℕ × ℕ)
  | [] => [a]
  | b :: l =>
    if a.2.1 * a.2.2 < b.2.1 * b.2.2 then b :: insertByArea a l else a :: b :: l

/-- `bounding_boxes.sort_by_key(|&(_, w, h)| Reverse(w * h))`
(line 178): stable sort by descending area `w * h` (ties keep first-seen
order).  A stable sort is functionally determined by its key, so this
structurally-recursive stable insertion sort computes exactly what the
source's stable `sort_by_key` computes. -/
def sortBoxes : List (ℕ × ℕ × ℕ) → List (ℕ × ℕ × ℕ)
  | [] => []
  | a :: l => insertByArea a (sortBoxes l)

/-- A full packing run: sort, then place into the freshly
zero-filled canvas (`outbuf.fill(0x00)`, line 49). -/
def pack (S : ℕ) (boxes : List (ℕ × ℕ × ℕ)) : Option (List (ℕ × SourceRect)) :=
  packGlyphs S (sortBoxes boxes) fun _ _ => 0

/-! ### Packer lemmas -/

lemma interiorFree_eq_zero {buf : ℕ → ℕ → ℕ} {tx ty w h : ℕ}
    (hfree : interiorFree buf tx ty w h = true)
    {px py : ℕ} (hx₁ : tx ≤ px) (hx₂ : px < tx + w) (hy₁ : ty ≤ py) (hy₂ : py < ty + h) :
    buf px py = 0 := by
  have hall := (List.all_eq_true.mp hfree) (py - ty)
      (List.mem_range.mpr (by omega))
  have hall2 := (List.all_eq_true.mp hall) (px - tx)
      (List.mem_range.mpr (by omega))
  have hx : tx + (px - tx) = px := by omega
  have hy : ty + (py - ty) = py := by omega
  rw [hx, hy] at hall2
  simpa using hall2

lemma setPix_apply (buf : ℕ → ℕ → ℕ) (px py v a b : ℕ) :
    setPix buf px py v a b = if a = px ∧ b = py then v else buf a b := rfl

/-- Characterisation of `markRect`: pixels covered by the rectangle become
`0xFF`, others are untouched. -/
lemma markRect_eq (buf : ℕ → ℕ → ℕ) (tx ty w h : ℕ) (a b : ℕ) :
    markRect buf tx ty w h a b =
      if tx ≤ a ∧ a < tx + w ∧ ty ≤ b ∧ b < ty + h then 0xFF else buf a b := by
  have hrowEq : ∀ (r : ℕ) (buf' : ℕ → ℕ → ℕ) (a b : ℕ),
      (List.range w).foldl (fun cv2 itx => setPix cv2 (tx + itx) (ty + r) 0xFF) buf' a b =
        if tx ≤ a ∧ a < tx + w ∧ b = ty + r then 0xFF else buf' a b := by
    intro r
    induction w with
    | zero =>
      intro buf' a b
      rw [List.range_zero, List.foldl_nil, if_neg (by omega)]
    | succ m ihw =>
      intro buf' a b
      rw [List.range_succ, List.foldl_append, List.foldl_cons, List.foldl_nil]
      rw [setPix_apply]
      by_cases hcase2 : a = tx + m ∧ b = ty + r
      · rw [if_pos hcase2, if_pos (by omega : tx ≤ a ∧ a < tx + (m+1) ∧ b = ty + r)]
      · rw [if_neg hcase2, ihw]
        by_cases hcase : tx ≤ a ∧ a < tx + m ∧ b = ty + r
        · rw [if_pos hcase, if_pos (by omega : tx ≤ a ∧ a < tx + (m+1) ∧ b = ty + r)]
        · rw [if_neg hcase, if_neg (by omega)]
  unfold markRect
  induction h generalizing buf with
  | zero =>
    rw [List.range_zero, List.foldl_nil, if_neg (by omega)]
  | succ n ih =>
    rw [List.range_succ, List.foldl_append, List.foldl_cons, List.foldl_nil]
    rw [hrowEq n _ a b, ih]
    by_cases hin : tx ≤ a ∧ a < tx + w ∧ b = ty + n
    · rw [if_pos hin, if_pos (by omega)]
    · rw [if_neg hin]
      by_cases hin2 : tx ≤ a ∧ a < tx + w ∧ ty ≤ b ∧ b < ty + n
      · rw [if_pos hin2, if_pos (by omega)]
      · rw [if_neg hin2, if_neg (by omega)]

lemma findPos_mem {buf : ℕ → ℕ → ℕ} {S w h tx ty : ℕ}
    (hfind : findPos buf S w h = some (tx, ty)) :
    tx < S - w ∧ ty < S - h ∧ interiorFree buf tx ty w h = true := by
  unfold findPos at hfind
  obtain ⟨ty', hty', hmap⟩ := List.exists_of_findSome?_eq_some hfind
  cases hfx : (List.range (S - w)).find? fun tx =>
      cornersFree buf tx ty' w h && interiorFree buf tx ty' w h with
  | none => rw [hfx] at hmap; simp at hmap
  | some tx' =>
    rw [hfx] at hmap
    simp only [Option.map_some'] at hmap
    injection hmap with hpair
    obtain ⟨hx, hy⟩ := Prod.mk.injEq _ _ _ _ ▸ hpair
    have hx' : tx' = tx := by injection hpair
    have hy' : ty' = ty := by
      have := congrArg Prod.snd hpair; simpa using this
    subst hx' hy'
    have hmem := List.mem_of_find?_eq_some hfx
    have hsat := List.find?_some hfx
    refine ⟨List.mem_range.mp hmem, List.mem_range.mp hty', ?_⟩
    exact (Bool.and_eq_true _ _ ▸ hsat).2

/-- Soundness of the placement loop: every placement was made on a
currently-free region of the incoming canvas, lies in the canvas, and the
placements are pairwise disjoint. -/
lemma packGlyphs_sound {S : ℕ} :
    ∀ (boxes : List (ℕ × ℕ × ℕ)) (buf : ℕ → ℕ → ℕ) (placed : List (ℕ × SourceRect)),
      packGlyphs S boxes buf = some placed →
      (∀ p ∈ placed, rectInCanvas S p.2 ∧
        (∀ px py, rectCovers p.2 px py → buf px py = 0)) ∧
      placed.Pairwise fun a b => rectDisjoint a.2 b.2 := by
  intro boxes
  induction boxes with
  | nil =>
    intro buf placed hrun
    simp only [packGlyphs] at hrun
    injection hrun with h; subst h
    exact ⟨by simp, List.Pairwise.nil⟩
  | cons box rest ih =>
    intro buf placed hrun
    obtain ⟨gid, w, h⟩ := box
    simp only [packGlyphs] at hrun
    cases hfind : findPos buf S w h with
    | none => rw [hfind] at hrun; simp at hrun
    | some pos =>
      obtain ⟨tx, ty⟩ := pos
      rw [hfind] at hrun
      simp only [Option.map_eq_some'] at hrun
      obtain ⟨ps, hps, hplaced⟩ := hrun
      subst hplaced
      obtain ⟨htx, hty, hfree⟩ := findPos_mem hfind
      obtain ⟨ihA, ihB⟩ := ih (markRect buf tx ty w h) ps hps
      have hwS : w < S := by omega
      have hhS : h < S := by omega
      -- the head rectangle
      have hheadCanvas : rectInCanvas S (⟨tx, ty, w, h⟩ : SourceRect) := by
        intro px py hcov
        obtain ⟨h1, h2, h3, h4⟩ := hcov
        simp only at h1 h2 h3 h4
        omega
      have hheadFree : ∀ px py, rectCovers (⟨tx, ty, w, h⟩ : SourceRect) px py →
          buf px py = 0 := by
        intro px py hcov
        obtain ⟨h1, h2, h3, h4⟩ := hcov
        exact interiorFree_eq_zero hfree h1 h2 h3 h4
      -- rectangles placed later sit on pixels unmarked by the head
      have hrestBuf : ∀ p ∈ ps, ∀ px py, rectCovers p.2 px py → buf px py = 0 := by
        intro p hp px py hcov
        have hz := (ihA p hp).2 px py hcov
        rw [markRect_eq] at hz
        by_cases hin : tx ≤ px ∧ px < tx + w ∧ ty ≤ py ∧ py < ty + h
        · rw [if_pos hin] at hz; exact absurd hz (by norm_num)
        · rwa [if_neg hin] at hz
      have hheadDisj : ∀ p ∈ ps, rectDisjoint (⟨tx, ty, w, h⟩ : SourceRect) p.2 := by
        intro p hp px py ⟨hcov1, hcov2⟩
        have hz := (ihA p hp).2 px py hcov2
        rw [markRect_eq] at hz
        obtain ⟨h1, h2, h3, h4⟩ := hcov1
        rw [if_pos ⟨h1, h2, h3, h4⟩] at hz
        exact absurd hz (by norm_num)
      refine ⟨?_, ?_⟩
      · intro p hp
        rcases List.mem_cons.mp hp with hp | hp
        · subst hp; exact ⟨hheadCanvas, hheadFree⟩
        · exact ⟨(ihA p hp).1, hrestBuf p hp⟩
      · exact List.Pairwise.cons hheadDisj ihB

/-- C1 — For every packing run that completes successfully, the assigned
glyph rectangles are pairwise disjoint in their pixel-coverage sets, and
every assigned rectangle lies entirely within `[0, S) × [0, S)` where `S`
is the canvas side length. -/
theorem pack_disjoint_and_contained (S : ℕ) (boxes : List (ℕ × ℕ × ℕ))
    (placed : List (ℕ × SourceRect)) (hrun : pack S boxes = some placed) :
    (∀ p ∈ placed, rectInCanvas S p.2) ∧
    placed.Pairwise fun a b => rectDisjoint a.2 b.2 := by
  obtain ⟨hA, hB⟩ := packGlyphs_sound (sortBoxes boxes) (fun _ _ => 0) placed hrun
  exact ⟨fun p hp => (hA p hp).1, hB⟩

/-- Witness for C1: a concrete successful packing run of two boxes on an
8×8 canvas. -/
theorem pack_disjoint_and_contained_witness :
    (∀ p ∈ [((0 : ℕ), (⟨0, 0, 2, 2⟩ : SourceRect)), (1, ⟨2, 0, 3, 1⟩)],
        rectInCanvas 8 p.2) ∧
    List.Pairwise (fun a b => rectDisjoint a.2 b.2)
      [((0 : ℕ), (⟨0, 0, 2, 2⟩ : SourceRect)), (1, ⟨2, 0, 3, 1⟩)] :=
  pack_disjoint_and_contained 8 [(0, 2, 2), (1, 3, 1)] _ (by decide)

/-- C7 counterexample — packing a single rectangle whose width and height
both equal the canvas side `S` does NOT succeed: the candidate scan ranges
`0..(S - h)` and `0..(S - w)` (lines 180–181) are end-exclusive, so a
canvas-sized rectangle has no candidate position at all.  Concretely, a
single 4×4 box on a 4×4 canvas fails to pack. -/
theorem pack_canvas_sized_fails :
    pack 4 [(0, 4, 4)] = none ∧ ¬∃ placed, pack 4 [(0, 4, 4)] = some placed := by
  refine ⟨by decide, ?_⟩
  rintro ⟨placed, hplaced⟩
  rw [show pack 4 [(0, 4, 4)] = none from by decide] at hplaced
  exact Option.noConfusion hplaced

/-- C7 (amended) — Packing zero rectangles succeeds trivially, but a
single rectangle of canvas size `S × S` always fails to pack (the source
scans top-left candidates over the end-exclusive ranges `0..(S - h)` ×
`0..(S - w)`, which are empty when `h = w = S`). -/
theorem pack_nil_and_canvas_sized (S gid : ℕ) :
    pack S [] = some [] ∧ pack S [(gid, S, S)] = none := by
  constructor
  · rfl
  · show packGlyphs S (sortBoxes [(gid, S, S)]) (fun _ _ => 0) = none
    have hsort : sortBoxes [(gid, S, S)] = [(gid, S, S)] := rfl
    rw [hsort]
    simp only [packGlyphs, findPos, Nat.sub_self, List.range_zero,
      List.findSome?_nil]

/-! ## The per-glyph metadata loop (`src/main.rs`, lines 142–177)

For each code point of the (duplicate-free, sorted) charset the program
queries the rasterizer for horizontal metrics and a pixel bounding box and
builds the metadata map plus the packer's input list `bounding_boxes`.
The rasterizer's answers are modelled as a `GlyphInput` record. -/

/-- `rusttype`'s pixel bounding box (`Rect<i32>`). -/
structure BBox where
  min_x : ℤ
  min_y : ℤ
  max_x : ℤ
  max_y : ℤ
deriving DecidableEq, Repr

/-- Everything the rasterizer reports about one charset code point:
the code point itself (`gid`), its horizontal metrics, and its optional
pixel bounding box. -/
structure GlyphInput where
  gid : ℕ
  advance_width : ℚ
  left_side_bearing : ℚ
  bbox : Option BBox
deriving DecidableEq, Repr

/-- `padded_w`/`padded_h` of a glyph with bounding box `bb`
(lines 161–165): `bounding_box.width() as u32 + padding * 2`.  The
rasterizer guarantees `max ≥ min`, so the `i32 → u32` cast is `toNat`. -/
def paddedW (P : ℕ) (bb : BBox) : ℕ := (bb.max_x - bb.min_x).toNat + P * 2
def paddedH (P : ℕ) (bb : BBox) : ℕ := (bb.max_y - bb.min_y).toNat + P * 2

/-- The over-255 test of lines 167–170: the glyph is skipped (`continue`)
when its padded width or height exceeds `0xFF`. -/
def oversized (P : ℕ) (g : GlyphInput) : Bool :=
  match g.bbox with
  | none => false
  | some bb => decide (0xFF < paddedW P bb) || decide (0xFF < paddedH P bb)

/-- One iteration of the `for &glyph_id in charset.iter()` loop
(lines 143–177), acting on the accumulated metadata map (`HashMap`
modelled as an association list with unique keys) and `bounding_boxes`
list. -/
def processGlyph (P : ℕ) (acc : List (ℕ × BitmapGlyph) × List (ℕ × ℕ × ℕ))
    (g : GlyphInput) : List (ℕ × BitmapGlyph) × List (ℕ × ℕ × ℕ) :=
  match g.bbox with
  | none =>
    -- lines 151–159: no bounding box → metrics-only entry, `ascent = 0.0`,
    -- not pushed to `bounding_boxes`
    (acc.1 ++ [(g.gid, ⟨none, g.advance_width, g.left_side_bearing, 0⟩)], acc.2)
  | some bb =>
    if 0xFF < paddedW P bb ∨ 0xFF < paddedH P bb then
      -- lines 167–170: too large → `continue`, no entry at all
      acc
    else
      -- lines 172–176: entry with `ascent = min.y as f32 * -1.0`,
      -- `bitmap_source` still `None`, and a `bounding_boxes` push
      (acc.1 ++ [(g.gid, ⟨none, g.advance_width, g.left_side_bearing,
          (bb.min_y : ℚ) * (-1)⟩)],
       acc.2 ++ [(g.gid, paddedW P bb, paddedH P bb)])

/-- The whole metadata loop over the charset. -/
def buildGlyphData (P : ℕ) (inputs : List GlyphInput) :
    List (ℕ × BitmapGlyph) × List (ℕ × ℕ × ℕ) :=
  inputs.foldl (processGlyph P) ([], [])

lemma processGlyph_none (P : ℕ) (acc : List (ℕ × BitmapGlyph) × List (ℕ × ℕ × ℕ))
    (g : GlyphInput) (h : g.bbox = none) :
    processGlyph P acc g =
      (acc.1 ++ [(g.gid, ⟨none, g.advance_width, g.left_side_bearing, 0⟩)], acc.2) := by
  unfold processGlyph; rw [h]

lemma processGlyph_oversized (P : ℕ) (acc : List (ℕ × BitmapGlyph) × List (ℕ × ℕ × ℕ))
    (g : GlyphInput) (bb : BBox) (h : g.bbox = some bb)
    (hov : 0xFF < paddedW P bb ∨ 0xFF < paddedH P bb) :
    processGlyph P acc g = acc := by
  unfold processGlyph; rw [h]; exact if_pos hov

lemma processGlyph_ok (P : ℕ) (acc : List (ℕ × BitmapGlyph) × List (ℕ × ℕ × ℕ))
    (g : GlyphInput) (bb : BBox) (h : g.bbox = some bb)
    (hov : ¬(0xFF < paddedW P bb ∨ 0xFF < paddedH P bb)) :
    processGlyph P acc g =
      (acc.1 ++ [(g.gid, ⟨none, g.advance_width, g.left_side_bearing,
          (bb.min_y : ℚ) * (-1)⟩)],
       acc.2 ++ [(g.gid, paddedW P bb, paddedH P bb)]) := by
  unfold processGlyph; rw [h]; exact if_neg hov

lemma buildGlyphData_eq_foldl (P : ℕ) (inputs : List GlyphInput)
    (acc : List (ℕ × BitmapGlyph) × List (ℕ × ℕ × ℕ)) :
    inputs.foldl (processGlyph P) acc =
      (acc.1 ++ (buildGlyphData P inputs).1, acc.2 ++ (buildGlyphData P inputs).2) := by
  induction inputs generalizing acc with
  | nil => simp [buildGlyphData]
  | cons g rest ih =>
    rw [List.foldl_cons, ih]
    have hbase : buildGlyphData P (g :: rest) =
        (((processGlyph P ([], []) g).1 ++ (buildGlyphData P rest).1,
          (processGlyph P ([], []) g).2 ++ (buildGlyphData P rest).2)) := by
      show List.foldl (processGlyph P) (processGlyph P ([], []) g) rest = _
      rw [ih]
    rw [hbase]
    cases hbb : g.bbox with
    | none => rw [processGlyph_none P _ g hbb, processGlyph_none P _ g hbb]; simp
    | some bb =>
      by_cases hov : 0xFF < paddedW P bb ∨ 0xFF < paddedH P bb
      · rw [processGlyph_oversized P _ g bb hbb hov,
          processGlyph_oversized P _ g bb hbb hov]
        simp
      · rw [processGlyph_ok P _ g bb hbb hov, processGlyph_ok P _ g bb hbb hov]; simp

lemma buildGlyphData_cons (P : ℕ) (h : GlyphInput) (rest : List GlyphInput) :
    buildGlyphData P (h :: rest) =
      ((processGlyph P ([], []) h).1 ++ (buildGlyphData P rest).1,
       (processGlyph P ([], []) h).2 ++ (buildGlyphData P rest).2) := by
  show List.foldl (processGlyph P) (processGlyph P ([], []) h) rest = _
  rw [buildGlyphData_eq_foldl]

/-- The head glyph's own contribution to metadata and boxes carries only
its own id. -/
lemma processGlyph_head_ids (P : ℕ) (h : GlyphInput) :
    (∀ p ∈ (processGlyph P ([], []) h).1, p.1 = h.gid) ∧
    (∀ box ∈ (processGlyph P ([], []) h).2, box.1 = h.gid) := by
  cases hbb : h.bbox with
  | none =>
    rw [processGlyph_none P _ h hbb]
    constructor <;> intro p hp <;> simp at hp
    simp [hp]
  | some bb =>
    by_cases hov : 0xFF < paddedW P bb ∨ 0xFF < paddedH P bb
    · rw [processGlyph_oversized P _ h bb hbb hov]
      constructor <;> intro p hp <;> simp at hp
    · rw [processGlyph_ok P _ h bb hbb hov]
      constructor <;> intro p hp <;> simp at hp <;> simp [hp]

/-- Every id occurring in the produced metadata map or box list comes from
the input charset. -/
lemma buildGlyphData_ids (P : ℕ) (inputs : List GlyphInput) :
    (∀ p ∈ (buildGlyphData P inputs).1, p.1 ∈ inputs.map GlyphInput.gid) ∧
    (∀ box ∈ (buildGlyphData P inputs).2, box.1 ∈ inputs.map GlyphInput.gid) := by
  induction inputs with
  | nil => simp [buildGlyphData]
  | cons h rest ih =>
    rw [buildGlyphData_cons, List.map_cons]
    constructor
    · intro p hp
      rcases List.mem_append.mp hp with hp | hp
      · rw [(processGlyph_head_ids P h).1 p hp]; exact List.mem_cons_self _ _
      · exact List.mem_cons_of_mem _ (ih.1 p hp)
    · intro box hbox
      rcases List.mem_append.mp hbox with hbox | hbox
      · rw [(processGlyph_head_ids P h).2 box hbox]; exact List.mem_cons_self _ _
      · exact List.mem_cons_of_mem _ (ih.2 box hbox)

/-- C8 — A glyph whose rasterizer bounding box is absent does not fail the
run: it still gets a metadata entry with `bitmap_source = none`, its
`advance_width` and `left_side_bearing`, and `ascent = 0.0`, and it is
excluded from the packer's input list. -/
theorem glyph_without_bbox_metrics_only (P : ℕ) (inputs : List GlyphInput)
    (g : GlyphInput) (hmem : g ∈ inputs) (hbb : g.bbox = none)
    (hkeys : (inputs.map GlyphInput.gid).Nodup) :
    (buildGlyphData P inputs).1.lookup g.gid =
      some ⟨none, g.advance_width, g.left_side_bearing, 0⟩ ∧
    ∀ box ∈ (buildGlyphData P inputs).2, box.1 ≠ g.gid := by
  induction inputs with
  | nil => cases hmem
  | cons h rest ih =>
    rw [buildGlyphData_cons]
    rw [List.map_cons, List.nodup_cons] at hkeys
    rcases List.mem_cons.mp hmem with hg | hg
    · subst hg
      have hnotin : g.gid ∉ rest.map GlyphInput.gid := hkeys.1
      constructor
      · rw [processGlyph_none P _ g hbb, List.lookup_append]
        simp [List.lookup_cons]
      · intro box hbox hcontra
        rcases List.mem_append.mp hbox with hbox | hbox
        · rw [processGlyph_none P _ g hbb] at hbox; simp at hbox
        · have hidmem := (buildGlyphData_ids P rest).2 box hbox
          rw [hcontra] at hidmem
          exact hnotin hidmem
    · have hne : h.gid ≠ g.gid := by
        intro hcontra
        exact hkeys.1 (hcontra ▸ List.mem_map.mpr ⟨g, hg, rfl⟩)
      obtain ⟨ihl, ihb⟩ := ih hg hkeys.2
      constructor
      · rw [List.lookup_append]
        have hhead : (processGlyph P ([], []) h).1.lookup g.gid = none := by
          rw [List.lookup_eq_none_iff]
          intro p hp
          have hpid := (processGlyph_head_ids P h).1 p hp
          simp only [hpid, bne_iff_ne, ne_eq]
          exact fun hc => hne hc.symm
        rw [hhead]
        exact ihl
      · intro box hbox
        rcases List.mem_append.mp hbox with hbox | hbox
        · rw [(processGlyph_head_ids P h).2 box hbox]; exact hne
        · exact ihb box hbox

/-- Witness for C8: a two-glyph charset where the second glyph (a space,
code point 0x20) has no bounding box. -/
theorem glyph_without_bbox_metrics_only_witness :
    (buildGlyphData 8
        [⟨65, 10, 1, some ⟨0, -20, 12, 2⟩⟩, ⟨32, 6, 0, none⟩]).1.lookup 32 =
      some ⟨none, 6, 0, 0⟩ ∧
    ∀ box ∈ (buildGlyphData 8
        [⟨65, 10, 1, some ⟨0, -20, 12, 2⟩⟩, ⟨32, 6, 0, none⟩]).2, box.1 ≠ 32 :=
  glyph_without_bbox_metrics_only 8 _ ⟨32, 6, 0, none⟩ (by decide) rfl (by decide)

/-- C10 — A glyph that has a bounding box but whose padded width or height
exceeds 255 is omitted entirely from the output metadata (no entry at all,
not even a metrics-only one) and from the packer's input list. -/
theorem oversized_glyph_omitted (P : ℕ) (inputs : List GlyphInput)
    (g : GlyphInput) (hmem : g ∈ inputs) (bb : BBox) (hbb : g.bbox = some bb)
    (hov : 0xFF < paddedW P bb ∨ 0xFF < paddedH P bb)
    (hkeys : (inputs.map GlyphInput.gid).Nodup) :
    (buildGlyphData P inputs).1.lookup g.gid = none ∧
    ∀ box ∈ (buildGlyphData P inputs).2, box.1 ≠ g.gid := by
  induction inputs with
  | nil => cases hmem
  | cons h rest ih =>
    rw [buildGlyphData_cons]
    rw [List.map_cons, List.nodup_cons] at hkeys
    rcases List.mem_cons.mp hmem with hg | hg
    · subst hg
      rw [processGlyph_oversized P _ g bb hbb hov]
      constructor
      · rw [List.nil_append, List.lookup_eq_none_iff]
        intro p hp
        have hidmem := (buildGlyphData_ids P rest).1 p hp
        simp only [bne_iff_ne, ne_eq]
        intro hcontra
        rw [← hcontra] at hidmem
        exact hkeys.1 hidmem
      · intro box hbox hcontra
        rw [List.nil_append] at hbox
        have hidmem := (buildGlyphData_ids P rest).2 box hbox
        rw [hcontra] at hidmem
        exact hkeys.1 hidmem
    · have hne : h.gid ≠ g.gid := by
        intro hcontra
        exact hkeys.1 (hcontra ▸ List.mem_map.mpr ⟨g, hg, rfl⟩)
      obtain ⟨ihl, ihb⟩ := ih hg hkeys.2
      constructor
      · rw [List.lookup_append]
        have hhead : (processGlyph P ([], []) h).1.lookup g.gid = none := by
          rw [List.lookup_eq_none_iff]
          intro p hp
          have hpid := (processGlyph_head_ids P h).1 p hp
          simp only [hpid, bne_iff_ne, ne_eq]
          exact fun hc => hne hc.symm
        rw [hhead]
        exact ihl
      · intro box hbox
        rcases List.mem_append.mp hbox with hbox | hbox
        · rw [(processGlyph_head_ids P h).2 box hbox]; exact hne
        · exact ihb box hbox

/-- Witness for C10: with padding 8, a glyph of raw width 300 is padded to
316 > 255 and vanishes from metadata and boxes, while a normal glyph
remains. -/
theorem oversized_glyph_omitted_witness :
    (buildGlyphData 8
        [⟨65, 10, 1, some ⟨0, -300, 300, 0⟩⟩, ⟨66, 6, 0, some ⟨0, -10, 10, 0⟩⟩]).1.lookup 65 =
      none ∧
    ∀ box ∈ (buildGlyphData 8
        [⟨65, 10, 1, some ⟨0, -300, 300, 0⟩⟩, ⟨66, 6, 0, some ⟨0, -10, 10, 0⟩⟩]).2,
      box.1 ≠ 65 :=
  oversized_glyph_omitted 8 _ ⟨65, 10, 1, some ⟨0, -300, 300, 0⟩⟩ (by decide)
    ⟨0, -300, 300, 0⟩ rfl (by decide) (by decide)

/-! ## Run-level control flow (`src/main.rs`, lines 142–419)

`runModel` captures the pipeline's control flow after charset parsing and
font loading: build the metadata and box list, pack (a packing failure is
the fatal `return` of line 218, before any file is written), apply the
placements to the metadata (line 212, folded into the packing loop in the
source), render pixels (modelled separately below — rendering writes only
the in-memory canvas, no files), save the image (line 387,
**unconditionally before** the metadata-format dispatch), then write the
metadata only for a recognised extension (lines 390–416).  The kerning
table (lines 371–385) is omitted from the model: no claim concerns it. -/

/-- `out_metadata.glyphs.get_mut(&glyph_id).unwrap().bitmap_source = ...`
(line 212), applied for every successful placement. -/
def applyPlacements (meta : List (ℕ × BitmapGlyph))
    (placed : List (ℕ × SourceRect)) : List (ℕ × BitmapGlyph) :=
  meta.map fun p =>
    match placed.lookup p.1 with
    | some r => (p.1, { p.2 with bitmap_source := some r })
    | none => p

/-- Which files a run produced, and the final glyph metadata. -/
structure RunOutcome where
  imageWritten : Bool
  metaWritten : Bool
  glyphs : List (ℕ × BitmapGlyph)
deriving DecidableEq, Repr

/-- The metadata-path extensions recognised by the `match` of
lines 390–416. -/
def supportedExt (ext : String) : Bool :=
  ext == "ron" || ext == "json" || ext == "rkyv"

/-- The whole run (post-charset), tracking which output files get
written. -/
def runModel (S P : ℕ) (ext : String) (inputs : List GlyphInput) : RunOutcome :=
  match pack S (buildGlyphData P inputs).2 with
  | none => ⟨false, false, (buildGlyphData P inputs).1⟩  -- line 218: fatal, no files
  | some placed =>
    if supportedExt ext then
      -- image saved (387), then metadata written
      ⟨true, true, applyPlacements (buildGlyphData P inputs).1 placed⟩
    else
      -- image saved (387), then return (414): no metadata file
      ⟨true, false, applyPlacements (buildGlyphData P inputs).1 placed⟩

/-- An oversized glyph contributes nothing to metadata or boxes, so the
whole pipeline behaves as if it were absent from the charset. -/
lemma buildGlyphData_filter_oversized (P : ℕ) (inputs : List GlyphInput) :
    buildGlyphData P inputs =
      buildGlyphData P (inputs.filter fun g => !oversized P g) := by
  induction inputs with
  | nil => rfl
  | cons g rest ih =>
    by_cases hov : oversized P g = true
    · have hfilter : (g :: rest).filter (fun g => !oversized P g) =
          rest.filter fun g => !oversized P g := by
        rw [List.filter_cons, hov]
        simp
      rw [hfilter, ← ih, buildGlyphData_cons]
      have hbb : ∃ bb, g.bbox = some bb ∧
          (0xFF < paddedW P bb ∨ 0xFF < paddedH P bb) := by
        unfold oversized at hov
        cases hgb : g.bbox with
        | none => rw [hgb] at hov; simp at hov
        | some bb =>
          rw [hgb] at hov
          simp only [Bool.or_eq_true, decide_eq_true_eq] at hov
          exact ⟨bb, rfl, hov⟩
      obtain ⟨bb, hgb, hcond⟩ := hbb
      rw [processGlyph_oversized P _ g bb hgb hcond]
      simp
    · have hfilter : (g :: rest).filter (fun g => !oversized P g) =
          g :: rest.filter fun g => !oversized P g := by
        rw [List.filter_cons]
        simp [hov]
      rw [hfilter, buildGlyphData_cons, buildGlyphData_cons, ← ih]

/-- C3 counterexample — a run containing a glyph whose padded dimensions
exceed 255 does NOT fail fatally: with one oversized glyph (raw width 300,
padding 8) as the whole charset, packing trivially succeeds and both the
image file and the metadata file are written. -/
theorem oversized_glyph_run_succeeds :
    oversized 8 ⟨65, 10, 1, some ⟨0, -300, 300, 0⟩⟩ = true ∧
    (runModel 16 8 "ron" [⟨65, 10, 1, some ⟨0, -300, 300, 0⟩⟩]).imageWritten = true ∧
    (runModel 16 8 "ron" [⟨65, 10, 1, some ⟨0, -300, 300, 0⟩⟩]).metaWritten = true := by
  refine ⟨by decide, ?_, ?_⟩ <;> rfl

/-- C3 (amended) — A glyph whose padded width or height exceeds 255 pixels
is skipped individually (`continue`, line 169): the run proceeds exactly as
if the oversized glyph were not in the charset at all, rather than failing
fatally. -/
theorem oversized_glyph_skipped_individually (S P : ℕ) (ext : String)
    (inputs : List GlyphInput) :
    runModel S P ext inputs =
      runModel S P ext (inputs.filter fun g => !oversized P g) := by
  unfold runModel
  rw [← buildGlyphData_filter_oversized]

/-- C4 counterexample — a run whose metadata path has an unsupported
extension does NOT abort before any file is written: the image file is
saved (line 387) before the format dispatch (line 390) rejects the
extension. -/
theorem unknown_format_image_still_written :
    supportedExt "txt" = false ∧
    (runModel 16 8 "txt" []).imageWritten = true ∧
    (runModel 16 8 "txt" []).metaWritten = false := by
  refine ⟨by decide, ?_, ?_⟩ <;> rfl

/-- C4 (amended) — When the metadata path's format cannot be determined or
is unsupported, the metadata file is never written, but the image file has
already been saved by then: whenever packing succeeded, the run still
produces the image before aborting. -/
theorem unknown_format_aborts_after_image (S P : ℕ) (ext : String)
    (inputs : List GlyphInput) (hext : supportedExt ext = false) :
    (runModel S P ext inputs).metaWritten = false ∧
    ∀ placed, pack S (buildGlyphData P inputs).2 = some placed →
      (runModel S P ext inputs).imageWritten = true := by
  unfold runModel
  cases hpack : pack S (buildGlyphData P inputs).2 with
  | none =>
    exact ⟨rfl, fun placed hplaced => Option.noConfusion hplaced⟩
  | some placed =>
    rw [hext]
    exact ⟨rfl, fun _ _ => rfl⟩

/-- Witness for C4 (amended): the empty charset with extension `txt`. -/
theorem unknown_format_aborts_after_image_witness :
    (runModel 4 0 "txt" []).metaWritten = false ∧
    ∀ placed, pack 4 (buildGlyphData 0 []).2 = some placed →
      (runModel 4 0 "txt" []).imageWritten = true :=
  unknown_format_aborts_after_image 4 0 "txt" [] (by decide)

/-! ## Coverage mode (`src/main.rs`, lines 222–236) -/

/-- The output byte for a sampled pixel with coverage `v` in coverage
mode with `levels` quantization levels (line 232):
`(((v * levels).round() / levels) * 255.0).round() as u8`. -/
def coverageByte (levels : ℕ) (v : ℚ) : ℕ :=
  u8Round ((rustRound (v * levels) : ℚ) / levels * 255)

/-- One glyph's writes in coverage mode (lines 228–235): each sampled
pixel `(x, y, v)` of the mask is written at
`(tx + padding + x, ty + padding + y)`. -/
def drawCoverageGlyph (levels P : ℕ) (r : SourceRect) (mask : List (ℕ × ℕ × ℚ))
    (canvas : ℕ → ℕ → ℕ) : ℕ → ℕ → ℕ :=
  mask.foldl
    (fun cv t => setPix cv (r.x + P + t.1) (r.y + P + t.2.1) (coverageByte levels t.2.2))
    canvas

/-- A fold of pixel writes leaves un-targeted pixels unchanged. -/
lemma foldl_setPix_untouched {α : Type} (key : α → ℕ × ℕ) (val : α → ℕ)
    (l : List α) (canvas : ℕ → ℕ → ℕ) (a b : ℕ)
    (hmiss : ∀ t ∈ l, key t ≠ (a, b)) :
    l.foldl (fun cv t => setPix cv (key t).1 (key t).2 (val t)) canvas a b =
      canvas a b := by
  induction l generalizing canvas with
  | nil => rfl
  | cons t rest ih =>
    rw [List.foldl_cons, ih _ fun t' ht' => hmiss t' (List.mem_cons_of_mem _ ht')]
    apply setPix_apply _ _ _ _ _ _ |>.trans
    rw [if_neg]
    intro ⟨ha, hb⟩
    exact hmiss t (List.mem_cons_self _ _) (by rw [ha, hb])

/-- A fold of pixel writes stores, at a pixel targeted by entries that all
carry the same value, exactly that value. -/
lemma foldl_setPix_hit {α : Type} (key : α → ℕ × ℕ) (val : α → ℕ)
    (l : List α) (canvas : ℕ → ℕ → ℕ) (a b : ℕ) (c : ℕ)
    (hhit : ∃ t ∈ l, key t = (a, b))
    (hval : ∀ t ∈ l, key t = (a, b) → val t = c) :
    l.foldl (fun cv t => setPix cv (key t).1 (key t).2 (val t)) canvas a b = c := by
  induction l generalizing canvas with
  | nil => obtain ⟨t, ht, _⟩ := hhit; cases ht
  | cons t rest ih =>
    rw [List.foldl_cons]
    by_cases hrest : ∃ t' ∈ rest, key t' = (a, b)
    · exact ih _ hrest (fun t' ht' => hval t' (List.mem_cons_of_mem _ ht'))
    · obtain ⟨t₀, ht₀, hkey₀⟩ := hhit
      have ht0 : t₀ = t := by
        rcases List.mem_cons.mp ht₀ with h | h
        · exact h
        · exact absurd ⟨t₀, h, hkey₀⟩ hrest
      subst ht0
      rw [foldl_setPix_untouched key val rest _ a b
        fun t' ht' hk => hrest ⟨t', ht', hk⟩]
      rw [setPix_apply, if_pos ⟨(congrArg Prod.fst hkey₀).symm, (congrArg Prod.snd hkey₀).symm⟩]
      exact hval t₀ (List.mem_cons_self _ _) hkey₀

/-- C6 — In coverage mode every sampled pixel's output byte is
`round(round(v·L)/L · 255)`; with `coverage_levels = 4` the raw coverages
0.1, 0.3, 0.6, 0.9 map to distinct bytes among {0, 64, 128, 191, 255},
and every coverage in `[0, 1]` lands in that 5-element set. -/
theorem coverage_quantization (levels P : ℕ) (r : SourceRect)
    (mask : List (ℕ × ℕ × ℚ)) (canvas : ℕ → ℕ → ℕ) (x y : ℕ) (v : ℚ)
    (hmem : (x, y, v) ∈ mask)
    (honce : (mask.map fun t => (t.1, t.2.1)).Nodup) :
    drawCoverageGlyph levels P r mask canvas (r.x + P + x) (r.y + P + y) =
      u8Round ((rustRound (v * levels) : ℚ) / levels * 255) ∧
    (∀ w : ℚ, 0 ≤ w → w ≤ 1 →
      coverageByte 4 w ∈ ([0, 64, 128, 191, 255] : List ℕ)) ∧
    coverageByte 4 (1/10) = 0 ∧ coverageByte 4 (3/10) = 64 ∧
    coverageByte 4 (3/5) = 128 ∧ coverageByte 4 (9/10) = 255 := by
  refine ⟨?_, ?_,
    by norm_num [coverageByte, u8Round, rustRound, intToU8] <;> decide,
    by norm_num [coverageByte, u8Round, rustRound, intToU8] <;> decide,
    by norm_num [coverageByte, u8Round, rustRound, intToU8] <;> decide,
    by norm_num [coverageByte, u8Round, rustRound, intToU8] <;> decide⟩
  · unfold drawCoverageGlyph
    apply foldl_setPix_hit (fun t => (r.x + P + t.1, r.y + P + t.2.1))
      (fun t => coverageByte levels t.2.2) mask canvas _ _ _
      ⟨(x, y, v), hmem, rfl⟩
    intro t ht hkey
    have hxy : t.1 = x ∧ t.2.1 = y := by
      have h1 : r.x + P + t.1 = r.x + P + x := congrArg Prod.fst hkey
      have h2 : r.y + P + t.2.1 = r.y + P + y := congrArg Prod.snd hkey
      omega
    have hteq : t = (x, y, v) :=
      List.inj_on_of_nodup_map honce ht hmem (by rw [hxy.1, hxy.2])
    rw [hteq]
    rfl
  · intro w h0 h1
    unfold coverageByte
    have h40 : (0 : ℚ) ≤ w * (4:ℕ) := by positivity
    rw [show rustRound (w * (4:ℕ)) = ⌊w * (4:ℕ) + 1/2⌋ from if_pos h40]
    have hk0 : (0 : ℤ) ≤ ⌊w * (4:ℕ) + 1/2⌋ :=
      Int.floor_nonneg.mpr (by push_cast; linarith)
    have hk4 : ⌊w * (4:ℕ) + 1/2⌋ < 5 := Int.floor_lt.mpr (by push_cast; linarith)
    obtain ⟨k, hkeq, hk0', hk4'⟩ :
        ∃ k : ℤ, ⌊w * (4:ℕ) + 1/2⌋ = k ∧ 0 ≤ k ∧ k < 5 := ⟨_, rfl, hk0, hk4⟩
    rw [hkeq]
    interval_cases k <;> norm_num [u8Round, rustRound, intToU8] <;> decide

/-- Witness for C6: a one-entry mask with coverage 3/10 drawn at padding 1
into a 3×3 rectangle at the origin. -/
theorem coverage_quantization_witness :
    (drawCoverageGlyph 4 1 ⟨0, 0, 3, 3⟩ [(0, 0, 3/10)] (fun _ _ => 0)
        ((⟨0, 0, 3, 3⟩ : SourceRect).x + 1 + 0) ((⟨0, 0, 3, 3⟩ : SourceRect).y + 1 + 0) =
      u8Round ((rustRound ((3/10 : ℚ) * (4:ℕ)) : ℚ) / (4:ℕ) * 255)) ∧
    (∀ w : ℚ, 0 ≤ w → w ≤ 1 →
      coverageByte 4 w ∈ ([0, 64, 128, 191, 255] : List ℕ)) ∧
    coverageByte 4 (1/10) = 0 ∧ coverageByte 4 (3/10) = 64 ∧
    coverageByte 4 (3/5) = 128 ∧ coverageByte 4 (9/10) = 255 :=
  coverage_quantization 4 1 ⟨0, 0, 3, 3⟩ [(0, 0, 3/10)] (fun _ _ => 0) 0 0 (3/10)
    (by simp) (by simp)

/-! ## The SDF generator (`src/main.rs`, lines 237–369)

Per glyph, with `padded_w × padded_h` the stored rectangle size and
`max_dist = (padding as f32)²` (line 46): seed an `outside` and an
`inside` buffer from the coverage mask, run a down/up chamfer pass on each
ink column of each buffer, then per pixel take a brute-force row minimum,
normalise, combine and encode.  Buffers are modelled as total functions
`ℕ → ℚ` over the flat index `y * padded_w + x` used by the source. -/

/-- Seeding of the `outside` buffer (lines 253–260): `resize(n_pixels,
max_dist)`, then for every sampled pixel at flat index
`((padding + y) * padded_w) + padding + x`: `max_dist` if `v ≤ 0.5`,
else `0`. -/
def seedOutside (maxDist : ℚ) (P pw : ℕ) (mask : List (ℕ × ℕ × ℚ)) : ℕ → ℚ :=
  mask.foldl
    (fun buf t => Function.update buf ((P + t.2.1) * pw + (P + t.1))
      (if t.2.2 ≤ 1/2 then maxDist else 0))
    fun _ => maxDist

/-- Seeding of the `inside` buffer (lines 295–302): `resize(n_pixels,
0.0)`, then for every sampled pixel: `0` if `v ≤ 0.5`, else `max_dist`. -/
def seedInside (maxDist : ℚ) (P pw : ℕ) (mask : List (ℕ × ℕ × ℚ)) : ℕ → ℚ :=
  mask.foldl
    (fun buf t => Function.update buf ((P + t.2.1) * pw + (P + t.1))
      (if t.2.2 ≤ 1/2 then 0 else maxDist))
    fun _ => 0

/-- The seeding rule exactly as the spec's step 1 words it, for comparison
with the source's `seedOutside`: "for every sampled pixel, set its cell to
0 if coverage ≤ 0.5 (background) else to max_dist; all non-sampled cells
are also seeded at max_dist". -/
def seedOutsideClaim (maxDist : ℚ) (P pw : ℕ) (mask : List (ℕ × ℕ × ℚ)) : ℕ → ℚ :=
  mask.foldl
    (fun buf t => Function.update buf ((P + t.2.1) * pw + (P + t.1))
      (if t.2.2 ≤ 1/2 then 0 else maxDist))
    fun _ => maxDist

/-- The spec's step-1 wording for the inside buffer: "seed an inside
buffer with the opposite rule (ink pixels get 0, background gets
max_dist)". -/
def seedInsideClaim (maxDist : ℚ) (P pw : ℕ) (mask : List (ℕ × ℕ × ℚ)) : ℕ → ℚ :=
  mask.foldl
    (fun buf t => Function.update buf ((P + t.2.1) * pw + (P + t.1))
      (if t.2.2 ≤ 1/2 then maxDist else 0))
    fun _ => maxDist

/-- A fold of buffer updates leaves un-targeted cells unchanged. -/
lemma foldl_update_untouched {α β : Type} (key : α → ℕ) (val : α → β)
    (l : List α) (base : ℕ → β) (i : ℕ) (hmiss : ∀ t ∈ l, key t ≠ i) :
    l.foldl (fun buf t => Function.update buf (key t) (val t)) base i = base i := by
  induction l generalizing base with
  | nil => rfl
  | cons t rest ih =>
    rw [List.foldl_cons, ih _ fun t' ht' => hmiss t' (List.mem_cons_of_mem _ ht')]
    exact Function.update_noteq (fun h => hmiss t (List.mem_cons_self _ _) h.symm) _ _

/-- A fold of buffer updates stores, at a cell targeted by entries that
all carry the same value, exactly that value. -/
lemma foldl_update_hit {α β : Type} (key : α → ℕ) (val : α → β)
    (l : List α) (base : ℕ → β) (i : ℕ) (c : β)
    (hhit : ∃ t ∈ l, key t = i) (hval : ∀ t ∈ l, key t = i → val t = c) :
    l.foldl (fun buf t => Function.update buf (key t) (val t)) base i = c := by
  induction l generalizing base with
  | nil => obtain ⟨t, ht, _⟩ := hhit; cases ht
  | cons t rest ih =>
    rw [List.foldl_cons]
    by_cases hrest : ∃ t' ∈ rest, key t' = i
    · exact ih _ hrest fun t' ht' => hval t' (List.mem_cons_of_mem _ ht')
    · obtain ⟨t₀, ht₀, hkey₀⟩ := hhit
      have ht0 : t₀ = t := by
        rcases List.mem_cons.mp ht₀ with h | h
        · exact h
        · exact absurd ⟨t₀, h, hkey₀⟩ hrest
      subst ht0
      rw [foldl_update_untouched key val rest _ i fun t' ht' hk => hrest ⟨t', ht', hk⟩]
      rw [hkey₀, Function.update_same]
      exact hval t₀ (List.mem_cons_self _ _) hkey₀

/-- C2 counterexample — the claimed seeding is the exact swap of what the
source computes: for a single fully-inked sampled pixel (coverage 1) with
padding 1 and padded width 3, the source seeds the outside buffer's cell 4
with 0 where the claim demands `max_dist = 1`, and seeds the inside
buffer's non-sampled cell 0 with 0 where the claim demands `max_dist`. -/
theorem sdf_seeding_swapped :
    seedOutside 1 1 3 [(0, 0, 1)] 4 = 0 ∧ seedOutsideClaim 1 1 3 [(0, 0, 1)] 4 = 1 ∧
    seedInside 1 1 3 [(0, 0, 1)] 0 = 0 ∧ seedInsideClaim 1 1 3 [(0, 0, 1)] 0 = 1 ∧
    (0 : ℚ) ≠ 1 := by
  refine ⟨?_, ?_, ?_, ?_, by norm_num⟩ <;>
    norm_num [seedOutside, seedOutsideClaim, seedInside, seedInsideClaim,
      Function.update]

/-- C2 (amended) — The source's actual seeding: the `outside` buffer holds
`max_dist` at every non-sampled cell and at sampled pixels with coverage
≤ 0.5, and `0` at sampled pixels with coverage > 0.5 (distance-to-ink
seeds); the `inside` buffer holds `0` at every non-sampled cell and at
sampled pixels with coverage ≤ 0.5, and `max_dist` at sampled pixels with
coverage > 0.5.  (The spec describes the two buffers with the roles of ink
and background swapped.) -/
theorem sdf_seeding_rule (maxDist : ℚ) (P pw : ℕ) (mask : List (ℕ × ℕ × ℚ))
    (honce : (mask.map fun t => (P + t.2.1) * pw + (P + t.1)).Nodup) :
    (∀ i, (∀ t ∈ mask, (P + t.2.1) * pw + (P + t.1) ≠ i) →
      seedOutside maxDist P pw mask i = maxDist ∧
      seedInside maxDist P pw mask i = 0) ∧
    ∀ t ∈ mask,
      seedOutside maxDist P pw mask ((P + t.2.1) * pw + (P + t.1)) =
        (if t.2.2 ≤ 1/2 then maxDist else 0) ∧
      seedInside maxDist P pw mask ((P + t.2.1) * pw + (P + t.1)) =
        (if t.2.2 ≤ 1/2 then 0 else maxDist) := by
  constructor
  · intro i hmiss
    exact ⟨foldl_update_untouched _ _ mask _ i hmiss,
      foldl_update_untouched _ _ mask _ i hmiss⟩
  · intro t ht
    have huniq : ∀ t' ∈ mask,
        (P + t'.2.1) * pw + (P + t'.1) = (P + t.2.1) * pw + (P + t.1) → t' = t :=
      fun t' ht' hk => List.inj_on_of_nodup_map honce ht' ht hk
    constructor
    · exact foldl_update_hit _ _ mask _ _ _ ⟨t, ht, rfl⟩
        fun t' ht' hk => by rw [huniq t' ht' hk]
    · exact foldl_update_hit _ _ mask _ _ _ ⟨t, ht, rfl⟩
        fun t' ht' hk => by rw [huniq t' ht' hk]

/-- Witness for C2 (amended): one sampled ink pixel, padding 1, padded
width 3. -/
theorem sdf_seeding_rule_witness :
    ((∀ i, (∀ t ∈ [((0 : ℕ), (0 : ℕ), (1 : ℚ))], (1 + t.2.1) * 3 + (1 + t.1) ≠ i) →
      seedOutside 1 1 3 [(0, 0, 1)] i = 1 ∧
      seedInside 1 1 3 [(0, 0, 1)] i = 0) ∧
    ∀ t ∈ [((0 : ℕ), (0 : ℕ), (1 : ℚ))],
      seedOutside 1 1 3 [(0, 0, 1)] ((1 + t.2.1) * 3 + (1 + t.1)) =
        (if t.2.2 ≤ 1/2 then 1 else 0) ∧
      seedInside 1 1 3 [(0, 0, 1)] ((1 + t.2.1) * 3 + (1 + t.1)) =
        (if t.2.2 ≤ 1/2 then 0 else 1)) :=
  sdf_seeding_rule 1 1 3 [(0, 0, 1)] (by simp)

/-- Downward chamfer propagation on column `x` (lines 266–278 resp.
308–320): `for y in 1..padded_h`, with odometer step starting at 1,
`if buf[here] > buf[up] + step { buf[here] = buf[up] + step; step += 2 }
else { step = 1 }`.  The state is the buffer plus the current step; `fuel`
counts the remaining iterations and `y` is the current row. -/
def passDownAux (pw x : ℕ) : ℕ → ℕ → ((ℕ → ℚ) × ℚ) → ((ℕ → ℚ) × ℚ)
  | _, 0, s => s
  | y, fuel + 1, s =>
    if s.1 ((y - 1) * pw + x) + s.2 < s.1 (y * pw + x) then
      passDownAux pw x (y + 1) fuel
        (Function.update s.1 (y * pw + x) (s.1 ((y - 1) * pw + x) + s.2), s.2 + 2)
    else
      passDownAux pw x (y + 1) fuel (s.1, 1)

/-- The full downward pass over rows `1..padded_h`. -/
def passDown (pw x ph : ℕ) (buf : ℕ → ℚ) : ℕ → ℚ :=
  (passDownAux pw x 1 (ph - 1) (buf, 1)).1

/-- Upward chamfer propagation on column `x` (lines 280–292 resp.
322–334): `for y in (0..padded_h-1).rev()` with the same odometer rule
against the cell below.  The current row is `fuel - 1`. -/
def passUpAux (pw x : ℕ) : ℕ → ((ℕ → ℚ) × ℚ) → ((ℕ → ℚ) × ℚ)
  | 0, s => s
  | fuel + 1, s =>
    if s.1 ((fuel + 1) * pw + x) + s.2 < s.1 (fuel * pw + x) then
      passUpAux pw x fuel
        (Function.update s.1 (fuel * pw + x) (s.1 ((fuel + 1) * pw + x) + s.2), s.2 + 2)
    else
      passUpAux pw x fuel (s.1, 1)

/-- The full upward pass over rows `padded_h-2 .. 0`. -/
def passUp (pw x ph : ℕ) (buf : ℕ → ℚ) : ℕ → ℚ :=
  (passUpAux pw x (ph - 1) (buf, 1)).1

/-- The column loop (lines 262–293 resp. 304–335): for each
`x in 0..width` (where `width = padded_w - padding * 2`, line 251), run
the down pass then the up pass on column `x + padding`. -/
def vertPasses (P pw ph wdt : ℕ) (buf : ℕ → ℚ) : ℕ → ℚ :=
  (List.range wdt).foldl
    (fun b xi => passUp pw (xi + P) ph (passDown pw (xi + P) ph b)) buf

/-- The fully propagated outside buffer of one glyph. -/
def outsideField (P pw ph : ℕ) (mask : List (ℕ × ℕ × ℚ)) : ℕ → ℚ :=
  vertPasses P pw ph (pw - P * 2) (seedOutside ((P : ℚ) ^ 2) P pw mask)

/-- The fully propagated inside buffer of one glyph. -/
def insideField (P pw ph : ℕ) (mask : List (ℕ × ℕ × ℚ)) : ℕ → ℚ :=
  vertPasses P pw ph (pw - P * 2) (seedInside ((P : ℚ) ^ 2) P pw mask)

/-- The row-wise brute-force minimum (lines 340–348 resp. 352–359):
starting from the cell's own value, minimise
`buf[(y, x_there)] + (x_there - x_here)²` over all `x_there` in the row. -/
def rowMinDist (buf : ℕ → ℚ) (pw y x_here : ℕ) : ℚ :=
  (List.range pw).foldl
    (fun dist_min x_there =>
      if buf (y * pw + x_there) + ((x_there : ℚ) - (x_here : ℚ)) ^ 2 < dist_min then
        buf (y * pw + x_there) + ((x_there : ℚ) - (x_here : ℚ)) ^ 2
      else dist_min)
    (buf (y * pw + x_here))

/-- The signed distance of one pixel (lines 350–363): normalise both row
minima by `max_dist`, clamp to `[0, 1]`, and combine:
`-outside_distance` when `outside_distance > 0`, else `inside_distance`. -/
def sdfSigned (P pw ph : ℕ) (mask : List (ℕ × ℕ × ℚ)) (x y : ℕ) : ℚ :=
  let outside_distance :=
    qClamp (rowMinDist (outsideField P pw ph mask) pw y x / (P : ℚ) ^ 2) 0 1
  let inside_distance :=
    qClamp (rowMinDist (insideField P pw ph mask) pw y x / (P : ℚ) ^ 2) 0 1
  if 0 < outside_distance then -outside_distance else inside_distance

/-- The encoded byte of one pixel (line 364):
`(((signed_distance + 1.0) / 2.0) * 255.0).round() as u8`. -/
def sdfPixelByte (P pw ph : ℕ) (mask : List (ℕ × ℕ × ℚ)) (x y : ℕ) : ℕ :=
  u8Round ((sdfSigned P pw ph mask x y + 1) / 2 * 255)

/-- One glyph's writes in SDF mode (lines 338–366): every pixel of the
padded rectangle receives its encoded byte at `(tx + x_here, ty + y)`. -/
def drawSdfGlyph (P : ℕ) (r : SourceRect) (mask : List (ℕ × ℕ × ℚ))
    (canvas : ℕ → ℕ → ℕ) : ℕ → ℕ → ℕ :=
  (List.range r.height).foldl
    (fun cv y =>
      (List.range r.width).foldl
        (fun cv2 x_here =>
          setPix cv2 (r.x + x_here) (r.y + y)
            (sdfPixelByte P r.width r.height mask x_here y))
        cv)
    canvas

/-- Pointwise characterisation of a row-major grid of pixel writes with a
per-cell value function. -/
lemma foldl_grid_write (f : ℕ → ℕ → ℕ) (x0 y0 w h : ℕ) (canvas : ℕ → ℕ → ℕ)
    (a b : ℕ) :
    (List.range h).foldl
      (fun cv y => (List.range w).foldl
        (fun cv2 x => setPix cv2 (x0 + x) (y0 + y) (f x y)) cv) canvas a b =
      if x0 ≤ a ∧ a < x0 + w ∧ y0 ≤ b ∧ b < y0 + h then f (a - x0) (b - y0)
      else canvas a b := by
  have hrowEq : ∀ (n : ℕ) (buf' : ℕ → ℕ → ℕ),
      (List.range w).foldl
        (fun cv2 x => setPix cv2 (x0 + x) (y0 + n) (f x n)) buf' a b =
        if x0 ≤ a ∧ a < x0 + w ∧ b = y0 + n then f (a - x0) n
        else buf' a b := by
    intro n
    induction w with
    | zero =>
      intro buf'
      rw [List.range_zero, List.foldl_nil, if_neg (by omega)]
    | succ m ihw =>
      intro buf'
      rw [List.range_succ, List.foldl_append, List.foldl_cons, List.foldl_nil]
      rw [setPix_apply]
      by_cases hcase2 : a = x0 + m ∧ b = y0 + n
      · rw [if_pos hcase2, if_pos (by omega : x0 ≤ a ∧ a < x0 + (m+1) ∧ b = y0 + n)]
        have hm : m = a - x0 := by omega
        rw [hm]
      · rw [if_neg hcase2, ihw]
        by_cases hcase : x0 ≤ a ∧ a < x0 + m ∧ b = y0 + n
        · rw [if_pos hcase, if_pos (by omega : x0 ≤ a ∧ a < x0 + (m+1) ∧ b = y0 + n)]
        · rw [if_neg hcase, if_neg (by omega)]
  induction h generalizing canvas with
  | zero =>
    rw [List.range_zero, List.foldl_nil, if_neg (by omega)]
  | succ n ih =>
    rw [List.range_succ, List.foldl_append, List.foldl_cons, List.foldl_nil]
    rw [hrowEq n _, ih]
    by_cases hin : x0 ≤ a ∧ a < x0 + w ∧ b = y0 + n
    · rw [if_pos hin, if_pos (by omega)]
      have hb : b - y0 = n := by omega
      rw [hb]
    · rw [if_neg hin]
      by_cases hin2 : x0 ≤ a ∧ a < x0 + w ∧ y0 ≤ b ∧ b < y0 + n
      · rw [if_pos hin2, if_pos (by omega)]
      · rw [if_neg hin2, if_neg (by omega)]

/-- Pointwise characterisation of `drawSdfGlyph`: pixels of the rectangle
get their SDF byte, all others are untouched. -/
lemma drawSdfGlyph_apply (P : ℕ) (r : SourceRect) (mask : List (ℕ × ℕ × ℚ))
    (canvas : ℕ → ℕ → ℕ) (a b : ℕ) :
    drawSdfGlyph P r mask canvas a b =
      if r.x ≤ a ∧ a < r.x + r.width ∧ r.y ≤ b ∧ b < r.y + r.height then
        sdfPixelByte P r.width r.height mask (a - r.x) (b - r.y)
      else canvas a b :=
  foldl_grid_write (fun x y => sdfPixelByte P r.width r.height mask x y)
    r.x r.y r.width r.height canvas a b

/-- The per-glyph dispatch of the render loop (lines 222–237): coverage
mode when `coverage_levels` is configured, SDF mode otherwise. -/
def drawGlyph (mode : Option ℕ) (P : ℕ) (r : SourceRect)
    (mask : List (ℕ × ℕ × ℚ)) (canvas : ℕ → ℕ → ℕ) : ℕ → ℕ → ℕ :=
  match mode with
  | some levels => drawCoverageGlyph levels P r mask canvas
  | none => drawSdfGlyph P r mask canvas

/-- The full render (line 221 onward): refill the canvas with 0 (erasing
the packer's occupancy marks), then draw every glyph that owns a
rectangle. -/
def renderAll (mode : Option ℕ) (P : ℕ)
    (entries : List (SourceRect × List (ℕ × ℕ × ℚ))) : ℕ → ℕ → ℕ :=
  entries.foldl (fun cv e => drawGlyph mode P e.1 e.2 cv) fun _ _ => 0

lemma rectDisjoint_symm {r₁ r₂ : SourceRect} (h : rectDisjoint r₁ r₂) :
    rectDisjoint r₂ r₁ := fun px py hc => h px py ⟨hc.2, hc.1⟩

/-- A glyph whose mask stays within its rectangle writes nothing outside
that rectangle, in either mode. -/
lemma drawGlyph_frame (mode : Option ℕ) (P : ℕ) (r : SourceRect)
    (mask : List (ℕ × ℕ × ℚ))
    (hmask : ∀ t ∈ mask, P + t.1 < r.width ∧ P + t.2.1 < r.height)
    (canvas : ℕ → ℕ → ℕ) (px py : ℕ) (hout : ¬rectCovers r px py) :
    drawGlyph mode P r mask canvas px py = canvas px py := by
  cases mode with
  | some levels =>
    show drawCoverageGlyph levels P r mask canvas px py = canvas px py
    unfold drawCoverageGlyph
    apply foldl_setPix_untouched (fun t => (r.x + P + t.1, r.y + P + t.2.1))
      (fun t => coverageByte levels t.2.2) mask canvas px py
    intro t ht hkey
    obtain ⟨hw, hh⟩ := hmask t ht
    apply hout
    have h1 : r.x + P + t.1 = px := congrArg Prod.fst hkey
    have h2 : r.y + P + t.2.1 = py := congrArg Prod.snd hkey
    exact ⟨by omega, by omega, by omega, by omega⟩
  | none =>
    show drawSdfGlyph P r mask canvas px py = canvas px py
    rw [drawSdfGlyph_apply, if_neg]
    intro hcond
    exact hout ⟨hcond.1, hcond.2.1, hcond.2.2.1, hcond.2.2.2⟩

lemma foldl_draw_preserved (mode : Option ℕ) (P : ℕ)
    (l : List (SourceRect × List (ℕ × ℕ × ℚ))) (canvas : ℕ → ℕ → ℕ) (px py : ℕ)
    (hall : ∀ e ∈ l, ∀ cv : ℕ → ℕ → ℕ, drawGlyph mode P e.1 e.2 cv px py = cv px py) :
    l.foldl (fun cv e => drawGlyph mode P e.1 e.2 cv) canvas px py = canvas px py := by
  induction l generalizing canvas with
  | nil => rfl
  | cons e rest ih =>
    rw [List.foldl_cons, ih _ fun e' he' => hall e' (List.mem_cons_of_mem _ he')]
    exact hall e (List.mem_cons_self _ _) canvas

/-- C9 — Each glyph's writes touch only pixels of its own assigned
rectangle (both modes); every canvas pixel outside all assigned rectangles
stays at the initial fill value 0 (the packer's occupancy marks having
been erased by the refill of line 221); and in coverage mode an unsampled
pixel inside a rectangle also stays 0. -/
theorem render_touches_only_own_rect (mode : Option ℕ) (P : ℕ)
    (entries : List (SourceRect × List (ℕ × ℕ × ℚ)))
    (hmask : ∀ e ∈ entries, ∀ t ∈ e.2, P + t.1 < e.1.width ∧ P + t.2.1 < e.1.height)
    (hdisj : entries.Pairwise fun a b => rectDisjoint a.1 b.1) :
    (∀ e ∈ entries, ∀ (canvas : ℕ → ℕ → ℕ) (px py : ℕ), ¬rectCovers e.1 px py →
      drawGlyph mode P e.1 e.2 canvas px py = canvas px py) ∧
    (∀ px py, (∀ e ∈ entries, ¬rectCovers e.1 px py) →
      renderAll mode P entries px py = 0) ∧
    (∀ levels, mode = some levels →
      ∀ e ∈ entries, ∀ px py, rectCovers e.1 px py →
        (∀ t ∈ e.2, ¬(e.1.x + P + t.1 = px ∧ e.1.y + P + t.2.1 = py)) →
        renderAll mode P entries px py = 0) := by
  refine ⟨?_, ?_, ?_⟩
  · intro e he canvas px py hout
    exact drawGlyph_frame mode P e.1 e.2 (hmask e he) canvas px py hout
  · intro px py hout
    exact foldl_draw_preserved mode P entries _ px py fun e he cv =>
      drawGlyph_frame mode P e.1 e.2 (hmask e he) cv px py (hout e he)
  · intro levels hmode e he px py hcov hunwritten
    subst hmode
    apply foldl_draw_preserved
    intro e' he' cv
    by_cases heq : e'.1 = e.1
    · -- an entry with the same rectangle: its writes must miss (px, py)
      show drawCoverageGlyph levels P e'.1 e'.2 cv px py = cv px py
      unfold drawCoverageGlyph
      apply foldl_setPix_untouched (fun t => (e'.1.x + P + t.1, e'.1.y + P + t.2.1))
        (fun t => coverageByte levels t.2.2) e'.2 cv px py
      intro t ht hkey
      have h1 : e'.1.x + P + t.1 = px := congrArg Prod.fst hkey
      have h2 : e'.1.y + P + t.2.1 = py := congrArg Prod.snd hkey
      by_cases hee : e' = e
      · subst hee
        exact hunwritten t ht ⟨h1, h2⟩
      · -- distinct list entries sharing a rectangle are pairwise disjoint,
        -- impossible when the shared rectangle covers a pixel
        have hd := List.Pairwise.forall (fun a b h => rectDisjoint_symm h) hdisj
          he' he hee
        rw [heq] at hd
        exact hd px py ⟨hcov, hcov⟩
    · have hee : e' ≠ e := fun hc => heq (by rw [hc])
      have hd := List.Pairwise.forall (fun a b h => rectDisjoint_symm h) hdisj
        he' he hee
      apply drawGlyph_frame (some levels) P e'.1 e'.2 (hmask e' he') cv px py
      intro hcov'
      exact hd px py ⟨hcov', hcov⟩

/-- Witness for C9: one glyph with a single sampled pixel, coverage
mode. -/
theorem render_touches_only_own_rect_witness :
    (∀ e ∈ [((⟨0, 0, 3, 3⟩ : SourceRect), [((0 : ℕ), (0 : ℕ), (1 : ℚ))])],
      ∀ (canvas : ℕ → ℕ → ℕ) (px py : ℕ), ¬rectCovers e.1 px py →
      drawGlyph (some 4) 1 e.1 e.2 canvas px py = canvas px py) ∧
    (∀ px py,
      (∀ e ∈ [((⟨0, 0, 3, 3⟩ : SourceRect), [((0 : ℕ), (0 : ℕ), (1 : ℚ))])],
        ¬rectCovers e.1 px py) →
      renderAll (some 4) 1 [((⟨0, 0, 3, 3⟩ : SourceRect), [(0, 0, 1)])] px py = 0) ∧
    (∀ levels, (some 4 : Option ℕ) = some levels →
      ∀ e ∈ [((⟨0, 0, 3, 3⟩ : SourceRect), [((0 : ℕ), (0 : ℕ), (1 : ℚ))])],
      ∀ px py, rectCovers e.1 px py →
        (∀ t ∈ e.2, ¬(e.1.x + 1 + t.1 = px ∧ e.1.y + 1 + t.2.1 = py)) →
        renderAll (some 4) 1 [((⟨0, 0, 3, 3⟩ : SourceRect), [(0, 0, 1)])] px py = 0) :=
  render_touches_only_own_rect (some 4) 1 _ (by simp; intros; omega) (by simp)

/-! ## Characterising the chamfer passes

Infrastructure for C5: flat-index arithmetic, a patch combinator for
describing a pass's writes, frame lemmas (a pass touches only its own
column), and column-locality lemmas (a pass reads only its own column). -/

lemma colIdx_mod {pw x : ℕ} (hx : x < pw) (y : ℕ) : (y * pw + x) % pw = x := by
  rw [Nat.add_comm, Nat.add_mul_mod_self_right]
  exact Nat.mod_eq_of_lt hx

lemma colIdx_div {pw x : ℕ} (hx : x < pw) (y : ℕ) : (y * pw + x) / pw = y := by
  rw [Nat.add_comm, Nat.add_mul_div_right _ _ (by omega : 0 < pw),
    Nat.div_eq_of_lt hx]
  omega

lemma colIdx_inj {pw x : ℕ} (hx : x < pw) {y₁ y₂ : ℕ}
    (h : y₁ * pw + x = y₂ * pw + x) : y₁ = y₂ := by
  have := congrArg (· / pw) h
  simpa [colIdx_div hx] using this

lemma colIdx_eq {pw x y : ℕ} (hx : x < pw) {i : ℕ} (hm : i % pw = x)
    (hd : i / pw = y) : i = y * pw + x := by
  have h := Nat.div_add_mod i pw
  rw [hd, hm, Nat.mul_comm] at h
  exact h.symm

/-- Overwrite rows `y ≤ y' < y + n` of column `x` with `g (y' - y)`. -/
def colPatch (pw x y n : ℕ) (g : ℕ → ℚ) (buf : ℕ → ℚ) : ℕ → ℚ :=
  fun i => if i % pw = x ∧ y ≤ i / pw ∧ i / pw < y + n then g (i / pw - y) else buf i

lemma colPatch_zero (pw x y : ℕ) (g : ℕ → ℚ) (buf : ℕ → ℚ) :
    colPatch pw x y 0 g buf = buf := by
  funext i
  exact if_neg (by omega)

lemma colPatch_at {pw x : ℕ} (hx : x < pw) {y n y' : ℕ} (g : ℕ → ℚ)
    (buf : ℕ → ℚ) (h₁ : y ≤ y') (h₂ : y' < y + n) :
    colPatch pw x y n g buf (y' * pw + x) = g (y' - y) := by
  rw [colPatch, if_pos]
  · rw [colIdx_div hx]
  · rw [colIdx_mod hx, colIdx_div hx]
    exact ⟨rfl, h₁, h₂⟩

lemma colPatch_off_row {pw x : ℕ} (hx : x < pw) {y n y' : ℕ} (g : ℕ → ℚ)
    (buf : ℕ → ℚ) (h : y' < y ∨ y + n ≤ y') :
    colPatch pw x y n g buf (y' * pw + x) = buf (y' * pw + x) := by
  rw [colPatch, if_neg]
  rw [colIdx_mod hx, colIdx_div hx]
  omega

lemma colPatch_off_col {pw x y n : ℕ} (g : ℕ → ℚ) (buf : ℕ → ℚ) {i : ℕ}
    (h : i % pw ≠ x) : colPatch pw x y n g buf i = buf i := by
  rw [colPatch, if_neg]
  intro hc
  exact h hc.1

/-- The down pass writes only cells of its own column. -/
lemma passDownAux_frame {pw x : ℕ} (hx : x < pw) :
    ∀ (fuel y : ℕ) (s : (ℕ → ℚ) × ℚ) (k : ℕ), k % pw ≠ x →
      (passDownAux pw x y fuel s).1 k = s.1 k := by
  intro fuel
  induction fuel with
  | zero => intro y s k _; rfl
  | succ n ih =>
    intro y s k hk
    show (passDownAux pw x y (n + 1) s).1 k = s.1 k
    rw [passDownAux]
    by_cases hc : s.1 ((y - 1) * pw + x) + s.2 < s.1 (y * pw + x)
    · rw [if_pos hc, ih]
      · exact Function.update_noteq (fun hck => hk (by rw [hck, colIdx_mod hx])) _ _
      · exact hk
    · rw [if_neg hc, ih _ _ _ hk]

/-- The up pass writes only cells of its own column. -/
lemma passUpAux_frame {pw x : ℕ} (hx : x < pw) :
    ∀ (fuel : ℕ) (s : (ℕ → ℚ) × ℚ) (k : ℕ), k % pw ≠ x →
      (passUpAux pw x fuel s).1 k = s.1 k := by
  intro fuel
  induction fuel with
  | zero => intro s k _; rfl
  | succ n ih =>
    intro s k hk
    show (passUpAux pw x (n + 1) s).1 k = s.1 k
    rw [passUpAux]
    by_cases hc : s.1 ((n + 1) * pw + x) + s.2 < s.1 (n * pw + x)
    · rw [if_pos hc, ih]
      · exact Function.update_noteq (fun hck => hk (by rw [hck, colIdx_mod hx])) _ _
      · exact hk
    · rw [if_neg hc, ih _ _ hk]

/-- The down pass reads only cells of its own column: running it on two
buffers that agree on column `x` yields states that agree on column `x`
and carry the same step. -/
lemma passDownAux_congr {pw x : ℕ} (hx : x < pw) :
    ∀ (fuel y : ℕ) (s s' : (ℕ → ℚ) × ℚ),
      (∀ y', s.1 (y' * pw + x) = s'.1 (y' * pw + x)) → s.2 = s'.2 →
      (∀ y', (passDownAux pw x y fuel s).1 (y' * pw + x) =
        (passDownAux pw x y fuel s').1 (y' * pw + x)) ∧
      (passDownAux pw x y fuel s).2 = (passDownAux pw x y fuel s').2 := by
  intro fuel
  induction fuel with
  | zero => intro y s s' hcol hstep; exact ⟨hcol, hstep⟩
  | succ n ih =>
    intro y s s' hcol hstep
    by_cases hc : s'.1 ((y - 1) * pw + x) + s'.2 < s'.1 (y * pw + x)
    · have hcs : s.1 ((y - 1) * pw + x) + s.2 < s.1 (y * pw + x) := by
        rw [hcol (y - 1), hcol y, hstep]; exact hc
      rw [show passDownAux pw x y (n+1) s = passDownAux pw x (y+1) n
          (Function.update s.1 (y * pw + x) (s.1 ((y-1) * pw + x) + s.2), s.2 + 2)
          from by rw [passDownAux, if_pos hcs],
        show passDownAux pw x y (n+1) s' = passDownAux pw x (y+1) n
          (Function.update s'.1 (y * pw + x) (s'.1 ((y-1) * pw + x) + s'.2), s'.2 + 2)
          from by rw [passDownAux, if_pos hc]]
      apply ih
      · intro y'
        dsimp only
        by_cases hy : y' = y
        · rw [hy, Function.update_same, Function.update_same, hcol (y - 1), hstep]
        · rw [Function.update_noteq (fun hk => hy (colIdx_inj hx hk)),
            Function.update_noteq (fun hk => hy (colIdx_inj hx hk))]
          exact hcol y'
      · show s.2 + 2 = s'.2 + 2
        rw [hstep]
    · have hcs : ¬(s.1 ((y - 1) * pw + x) + s.2 < s.1 (y * pw + x)) := by
        rw [hcol (y - 1), hcol y, hstep]; exact hc
      rw [show passDownAux pw x y (n+1) s = passDownAux pw x (y+1) n (s.1, 1)
          from by rw [passDownAux, if_neg hcs],
        show passDownAux pw x y (n+1) s' = passDownAux pw x (y+1) n (s'.1, 1)
          from by rw [passDownAux, if_neg hc]]
      exact ih _ _ _ hcol rfl

/-- The up pass reads only cells of its own column. -/
lemma passUpAux_congr {pw x : ℕ} (hx : x < pw) :
    ∀ (fuel : ℕ) (s s' : (ℕ → ℚ) × ℚ),
      (∀ y', s.1 (y' * pw + x) = s'.1 (y' * pw + x)) → s.2 = s'.2 →
      (∀ y', (passUpAux pw x fuel s).1 (y' * pw + x) =
        (passUpAux pw x fuel s').1 (y' * pw + x)) ∧
      (passUpAux pw x fuel s).2 = (passUpAux pw x fuel s').2 := by
  intro fuel
  induction fuel with
  | zero => intro s s' hcol hstep; exact ⟨hcol, hstep⟩
  | succ n ih =>
    intro s s' hcol hstep
    by_cases hc : s'.1 ((n + 1) * pw + x) + s'.2 < s'.1 (n * pw + x)
    · have hcs : s.1 ((n + 1) * pw + x) + s.2 < s.1 (n * pw + x) := by
        rw [hcol (n + 1), hcol n, hstep]; exact hc
      rw [show passUpAux pw x (n+1) s = passUpAux pw x n
          (Function.update s.1 (n * pw + x) (s.1 ((n+1) * pw + x) + s.2), s.2 + 2)
          from by rw [passUpAux, if_pos hcs],
        show passUpAux pw x (n+1) s' = passUpAux pw x n
          (Function.update s'.1 (n * pw + x) (s'.1 ((n+1) * pw + x) + s'.2), s'.2 + 2)
          from by rw [passUpAux, if_pos hc]]
      apply ih
      · intro y'
        dsimp only
        by_cases hy : y' = n
        · rw [hy, Function.update_same, Function.update_same, hcol (n + 1), hstep]
        · rw [Function.update_noteq (fun hk => hy (colIdx_inj hx hk)),
            Function.update_noteq (fun hk => hy (colIdx_inj hx hk))]
          exact hcol y'
      · show s.2 + 2 = s'.2 + 2
        rw [hstep]
    · have hcs : ¬(s.1 ((n + 1) * pw + x) + s.2 < s.1 (n * pw + x)) := by
        rw [hcol (n + 1), hcol n, hstep]; exact hc
      rw [show passUpAux pw x (n+1) s = passUpAux pw x n (s.1, 1)
          from by rw [passUpAux, if_neg hcs],
        show passUpAux pw x (n+1) s' = passUpAux pw x n (s'.1, 1)
          from by rw [passUpAux, if_neg hc]]
      exact ih _ _ hcol rfl

/-- Other columns' passes do not change column `c`. -/
lemma foldl_passes_frame {P pw ph : ℕ} :
    ∀ (l : List ℕ) {c : ℕ}, (∀ a ∈ l, a + P < pw ∧ a + P ≠ c) →
    ∀ (buf : ℕ → ℚ) (k : ℕ), k % pw = c →
    l.foldl (fun b xi => passUp pw (xi + P) ph (passDown pw (xi + P) ph b)) buf k =
      buf k := by
  intro l
  induction l with
  | nil => intro c _ buf k _; rfl
  | cons a rest ih =>
    intro c hl buf k hk
    rw [List.foldl_cons,
      ih (fun a' ha' => hl a' (List.mem_cons_of_mem _ ha')) _ _ hk]
    obtain ⟨hlt, hne⟩ := hl a (List.mem_cons_self _ _)
    unfold passUp passDown
    rw [passUpAux_frame hlt _ _ _ (by rw [hk]; exact hne.symm),
      passDownAux_frame hlt _ _ _ _ (by rw [hk]; exact hne.symm)]

/-- Running the whole column loop and then looking at ink column `c` is
the same as running just column `c`'s down/up pass on the seed buffer. -/
lemma vertPasses_col {P pw ph wdt : ℕ} (hwdt : ∀ xi < wdt, xi + P < pw)
    {ci : ℕ} (hci : ci < wdt) (buf : ℕ → ℚ) (y' : ℕ) :
    vertPasses P pw ph wdt buf (y' * pw + (ci + P)) =
      passUp pw (ci + P) ph (passDown pw (ci + P) ph buf) (y' * pw + (ci + P)) := by
  have hc : ci + P < pw := hwdt ci hci
  have hsplit : List.range wdt =
      (List.range ci ++ [ci]) ++ (List.range (wdt - ci - 1)).map (ci + 1 + ·) := by
    rw [← List.range_succ, ← List.range_add]
    congr 1
    omega
  unfold vertPasses
  rw [hsplit, List.foldl_append, List.foldl_append, List.foldl_cons, List.foldl_nil]
  set bufA := (List.range ci).foldl
    (fun b xi => passUp pw (xi + P) ph (passDown pw (xi + P) ph b)) buf with hbufA
  have hl1 : ∀ a ∈ List.range ci, a + P < pw ∧ a + P ≠ ci + P := by
    intro a ha
    have := List.mem_range.mp ha
    exact ⟨hwdt a (by omega), by omega⟩
  have hAgree : ∀ y'', bufA (y'' * pw + (ci + P)) = buf (y'' * pw + (ci + P)) := by
    intro y''
    rw [hbufA]
    exact foldl_passes_frame _ hl1 _ _ (colIdx_mod hc _)
  have hMid : ∀ y'', passUp pw (ci + P) ph (passDown pw (ci + P) ph bufA)
      (y'' * pw + (ci + P)) =
      passUp pw (ci + P) ph (passDown pw (ci + P) ph buf) (y'' * pw + (ci + P)) := by
    intro y''
    unfold passUp passDown
    exact (passUpAux_congr hc (ph - 1)
      ((passDownAux pw (ci + P) 1 (ph - 1) (bufA, 1)).1, 1)
      ((passDownAux pw (ci + P) 1 (ph - 1) (buf, 1)).1, 1)
      (passDownAux_congr hc (ph - 1) 1 (bufA, 1) (buf, 1) hAgree rfl).1 rfl).1 y''
  have hl2 : ∀ a ∈ (List.range (wdt - ci - 1)).map (ci + 1 + ·),
      a + P < pw ∧ a + P ≠ ci + P := by
    intro a ha
    rcases List.mem_map.mp ha with ⟨b, hb, hab⟩
    have := List.mem_range.mp hb
    constructor
    · exact hwdt a (by omega)
    · omega
  rw [foldl_passes_frame _ hl2 _ _ (colIdx_mod hc _)]
  exact hMid y'

/-! ### Phase lemmas for the chamfer passes

Each pass over one of this development's seed columns decomposes into
no-update stretches (across plateaus and into zero seeds) and odometer
climbs away from a zero seed. -/

lemma colPatch_congr_g {pw x y n : ℕ} {g₁ g₂ : ℕ → ℚ}
    (h : ∀ k < n, g₁ k = g₂ k) (buf : ℕ → ℚ) :
    colPatch pw x y n g₁ buf = colPatch pw x y n g₂ buf := by
  funext i
  unfold colPatch
  by_cases hc : i % pw = x ∧ y ≤ i / pw ∧ i / pw < y + n
  · rw [if_pos hc, if_pos hc, h _ (by omega)]
  · rw [if_neg hc, if_neg hc]

lemma colPatch_one_eq {pw x y : ℕ} (hx : x < pw) (g : ℕ → ℚ) (buf : ℕ → ℚ)
    (h : buf (y * pw + x) = g 0) : colPatch pw x y 1 g buf = buf := by
  funext i
  unfold colPatch
  by_cases hc : i % pw = x ∧ y ≤ i / pw ∧ i / pw < y + 1
  · have hd : i / pw = y := by omega
    have hi : i = y * pw + x := colIdx_eq hx hc.1 hd
    rw [if_pos hc, hd, hi, h, Nat.sub_self]
  · rw [if_neg hc]

/-- Growing a patch downward: updating row `y` and patching rows
`y+1 … y+n` equals patching rows `y … y+n`. -/
lemma colPatch_succ {pw x : ℕ} (hx : x < pw) (y n : ℕ) (g : ℕ → ℚ)
    (buf : ℕ → ℚ) (c : ℚ) (hc : c = g 0) :
    colPatch pw x (y + 1) n (fun k => g (k + 1))
        (Function.update buf (y * pw + x) c) =
      colPatch pw x y (n + 1) g buf := by
  funext i
  by_cases h1 : i % pw = x ∧ y + 1 ≤ i / pw ∧ i / pw < y + 1 + n
  · rw [colPatch, if_pos h1, colPatch, if_pos ⟨h1.1, by omega, by omega⟩]
    have harith : i / pw - (y + 1) + 1 = i / pw - y := by omega
    rw [harith]
  · rw [colPatch, if_neg h1, colPatch]
    by_cases h2 : i % pw = x ∧ i / pw = y
    · have hi : i = y * pw + x := colIdx_eq hx h2.1 h2.2
      rw [if_pos ⟨h2.1, by omega, by omega⟩, hi, Function.update_same, hc,
        colIdx_div hx, Nat.sub_self]
    · rw [if_neg (by omega), Function.update_noteq]
      intro hik
      exact h2 ⟨by rw [hik]; exact colIdx_mod hx _, by rw [hik]; exact colIdx_div hx _⟩

/-- Growing a patch upward: updating row `n` and patching rows `0 … n-1`
equals patching rows `0 … n`. -/
lemma colPatch_top {pw x : ℕ} (hx : x < pw) (n : ℕ) (g : ℕ → ℚ)
    (buf : ℕ → ℚ) (c : ℚ) (hc : c = g n) :
    colPatch pw x 0 n g (Function.update buf (n * pw + x) c) =
      colPatch pw x 0 (n + 1) g buf := by
  funext i
  by_cases h1 : i % pw = x ∧ 0 ≤ i / pw ∧ i / pw < 0 + n
  · rw [colPatch, if_pos h1, colPatch, if_pos ⟨h1.1, by omega, by omega⟩]
  · rw [colPatch, if_neg h1, colPatch]
    by_cases h2 : i % pw = x ∧ i / pw = n
    · have hi : i = n * pw + x := colIdx_eq hx h2.1 h2.2
      rw [if_pos ⟨h2.1, by omega, by omega⟩, hi, Function.update_same, hc,
        colIdx_div hx, Nat.sub_zero]
    · rw [if_neg (by omega), Function.update_noteq]
      intro hik
      exact h2 ⟨by rw [hik]; exact colIdx_mod hx _, by rw [hik]; exact colIdx_div hx _⟩

/-- No-update stretch of the down pass with incoming step 1: across rows
whose values never exceed the value above, the buffer is unchanged and the
step stays 1. -/
lemma passDownAux_noupdate {pw x : ℕ} (buf : ℕ → ℚ) :
    ∀ (n y m : ℕ),
      (∀ k < n, buf ((y + k) * pw + x) ≤ buf ((y + k - 1) * pw + x)) →
      passDownAux pw x y (n + m) (buf, 1) = passDownAux pw x (y + n) m (buf, 1) := by
  intro n
  induction n with
  | zero =>
    intro y m _
    rw [Nat.zero_add, Nat.add_zero]
  | succ n ih =>
    intro y m hle
    have h0 := hle 0 (by omega)
    rw [Nat.add_zero] at h0
    have hcond : ¬(buf ((y - 1) * pw + x) + 1 < buf (y * pw + x)) := by
      push_neg
      linarith
    rw [show (n + 1) + m = (n + m) + 1 from by omega, passDownAux]
    rw [if_neg (by exact_mod_cast hcond)]
    rw [ih (y + 1) m ?_]
    · rw [show y + 1 + n = y + (n + 1) from by omega]
    · intro k hk
      have hk1 := hle (k + 1) (by omega)
      rw [show y + 1 + k = y + (k + 1) from by omega]
      exact hk1

/-- No-update stretch of the down pass with an arbitrary non-negative
incoming step (the first no-update resets the step to 1). -/
lemma passDownAux_noupdate_s {pw x : ℕ} (buf : ℕ → ℚ) (n y m : ℕ) (s : ℚ)
    (hs : 0 ≤ s) (hn : 1 ≤ n)
    (hle : ∀ k < n, buf ((y + k) * pw + x) ≤ buf ((y + k - 1) * pw + x)) :
    passDownAux pw x y (n + m) (buf, s) = passDownAux pw x (y + n) m (buf, 1) := by
  obtain ⟨n', rfl⟩ : ∃ n', n = n' + 1 := ⟨n - 1, by omega⟩
  have h0 := hle 0 (by omega)
  rw [Nat.add_zero] at h0
  have hcond : ¬(buf ((y - 1) * pw + x) + s < buf (y * pw + x)) := by
    push_neg
    linarith
  rw [show (n' + 1) + m = (n' + m) + 1 from by omega, passDownAux, if_neg hcond]
  rw [passDownAux_noupdate buf n' (y + 1) m ?_]
  · rw [show y + 1 + n' = y + (n' + 1) from by omega]
  · intro k hk
    have hk1 := hle (k + 1) (by omega)
    rw [show y + 1 + k = y + (k + 1) from by omega]
    exact hk1

/-- No-update stretch of the up pass (incoming step 1): across rows whose
values never exceed the value below. -/
lemma passUpAux_noupdate {pw x : ℕ} (buf : ℕ → ℚ) :
    ∀ (n m : ℕ),
      (∀ k < n, buf ((m + k) * pw + x) ≤ buf ((m + k + 1) * pw + x)) →
      passUpAux pw x (n + m) (buf, 1) = passUpAux pw x m (buf, 1) := by
  intro n
  induction n with
  | zero => intro m _; rw [Nat.zero_add]
  | succ n ih =>
    intro m hle
    have h0 := hle n (by omega)
    have hcond : ¬(buf ((n + m + 1) * pw + x) + 1 < buf ((n + m) * pw + x)) := by
      push_neg
      rw [show m + n = n + m from by omega] at h0
      linarith
    rw [show (n + 1) + m = (n + m) + 1 from by omega, passUpAux, if_neg hcond]
    exact ih m fun k hk => hle k (by omega)

/-- No-update stretch of the up pass with an arbitrary non-negative
incoming step. -/
lemma passUpAux_noupdate_s {pw x : ℕ} (buf : ℕ → ℚ) (n m : ℕ) (s : ℚ)
    (hs : 0 ≤ s) (hn : 1 ≤ n)
    (hle : ∀ k < n, buf ((m + k) * pw + x) ≤ buf ((m + k + 1) * pw + x)) :
    passUpAux pw x (n + m) (buf, s) = passUpAux pw x m (buf, 1) := by
  obtain ⟨n', rfl⟩ : ∃ n', n = n' + 1 := ⟨n - 1, by omega⟩
  have h0 := hle n' (by omega)
  have hcond : ¬(buf ((n' + m + 1) * pw + x) + s < buf ((n' + m) * pw + x)) := by
    push_neg
    rw [show m + n' = n' + m from by omega] at h0
    linarith
  rw [show (n' + 1) + m = (n' + m) + 1 from by omega, passUpAux, if_neg hcond]
  exact passUpAux_noupdate buf n' m fun k hk => hle k (by omega)

/-- Odometer climb of the down pass away from a zero seed: across `n`
cells all holding `Pp²`, entered with the value `j²` above and step
`2j+1`, the cells become `(j+1)², (j+2)², …` (the last one saturating at
`Pp²` without an update, which resets the step). -/
lemma passDownAux_climb {pw x : ℕ} (hx : x < pw) (Pp : ℕ) :
    ∀ (n j y m : ℕ) (buf : ℕ → ℚ),
      j + n ≤ Pp →
      (∀ k < n, buf ((y + k) * pw + x) = ((Pp : ℚ)) ^ 2) →
      buf ((y - 1) * pw + x) = ((j : ℚ)) ^ 2 →
      passDownAux pw x y (n + m) (buf, 2 * (j : ℚ) + 1) =
        passDownAux pw x (y + n) m
          (colPatch pw x y n (fun k => (((j + k + 1 : ℕ) : ℚ)) ^ 2) buf,
           if j + n = Pp ∧ 0 < n then 1 else 2 * ((j + n : ℕ) : ℚ) + 1) := by
  intro n
  induction n with
  | zero =>
    intro j y m buf _ _ _
    rw [colPatch_zero, Nat.add_zero, Nat.add_zero, Nat.zero_add, if_neg (by omega)]
  | succ n ih =>
    intro j y m buf hjn hcells hprev
    have hhere : buf (y * pw + x) = ((Pp : ℚ)) ^ 2 := by
      have := hcells 0 (by omega)
      rwa [Nat.add_zero] at this
    rcases Nat.lt_or_ge (j + 1) Pp with hlt | hge
    · -- strict improvement
      have hltq : ((j : ℚ) + 1) ^ 2 < ((Pp : ℚ)) ^ 2 := by
        have hcast : (j : ℚ) + 1 < (Pp : ℚ) := by exact_mod_cast hlt
        have hj0 : (0 : ℚ) ≤ (j : ℚ) + 1 := by positivity
        nlinarith
      have hcond : buf ((y - 1) * pw + x) + (2 * (j : ℚ) + 1) < buf (y * pw + x) := by
        rw [hprev, hhere]
        nlinarith
      rw [show (n + 1) + m = (n + m) + 1 from by omega, passDownAux, if_pos hcond]
      have hval : buf ((y - 1) * pw + x) + (2 * (j : ℚ) + 1) =
          (((j + 1 : ℕ) : ℚ)) ^ 2 := by
        rw [hprev]
        push_cast
        ring
      have hstep2 : (2 * (j : ℚ) + 1) + 2 = 2 * ((j + 1 : ℕ) : ℚ) + 1 := by
        push_cast
        ring
      rw [hval, hstep2]
      rw [ih (j + 1) (y + 1) m _ (by omega) ?_ ?_]
      · rw [show y + 1 + n = y + (n + 1) from by omega]
        have hpatch : colPatch pw x (y + 1) n
              (fun k => (((j + 1 + k + 1 : ℕ) : ℚ)) ^ 2)
              (Function.update buf (y * pw + x) (((j + 1 : ℕ) : ℚ) ^ 2)) =
            colPatch pw x y (n + 1) (fun k => (((j + k + 1 : ℕ) : ℚ)) ^ 2) buf := by
          rw [colPatch_congr_g (show ∀ k < n,
              (((j + 1 + k + 1 : ℕ) : ℚ)) ^ 2 = (((j + (k + 1) + 1 : ℕ) : ℚ)) ^ 2 from
            fun k _ => by rw [show j + 1 + k + 1 = j + (k + 1) + 1 from by omega])]
          exact colPatch_succ hx y n (fun k => (((j + k + 1 : ℕ) : ℚ)) ^ 2) buf _
            (by rw [show j + 0 + 1 = j + 1 from by omega])
        rw [hpatch]
        have hsteps : (if j + 1 + n = Pp ∧ 0 < n then (1 : ℚ)
              else 2 * ((j + 1 + n : ℕ) : ℚ) + 1) =
            (if j + (n + 1) = Pp ∧ 0 < n + 1 then (1 : ℚ)
              else 2 * ((j + (n + 1) : ℕ) : ℚ) + 1) := by
          by_cases hPeq : j + (n + 1) = Pp
          · have hnpos : 0 < n := by omega
            rw [if_pos ⟨by omega, hnpos⟩, if_pos ⟨hPeq, by omega⟩]
          · rw [if_neg (by omega), if_neg (by omega)]
            rw [show j + 1 + n = j + (n + 1) from by omega]
        rw [hsteps]
      · intro k hk
        rw [Function.update_noteq fun hik => by
          have := colIdx_inj hx hik
          omega]
        have := hcells (k + 1) (by omega)
        rwa [show y + 1 + k = y + (k + 1) from by omega]
      · rw [show y + 1 - 1 = y from by omega, Function.update_same]
    · -- saturation: j + 1 = Pp forces n = 0
      have hjeq : j + 1 = Pp := by omega
      have hn0 : n = 0 := by omega
      subst hn0
      have hcond : ¬(buf ((y - 1) * pw + x) + (2 * (j : ℚ) + 1) < buf (y * pw + x)) := by
        push_neg
        rw [hprev, hhere, ← hjeq]
        push_cast
        nlinarith
      rw [show (0 + 1) + m = (0 + m) + 1 from by omega, passDownAux, if_neg hcond]
      rw [Nat.zero_add]
      rw [colPatch_one_eq hx _ _ (by rw [hhere, ← hjeq])]
      rw [if_pos ⟨by omega, by omega⟩]

/-- Odometer climb of the up pass away from a zero seed below: across
rows `n-1 … 0` all holding `Pp²`, entered from row `n` holding `j²`, row
`y` ends at `(j + (n - y))²` (the topmost cell saturating at `Pp²`). -/
lemma passUpAux_climb {pw x : ℕ} (hx : x < pw) (Pp : ℕ) :
    ∀ (n j : ℕ) (buf : ℕ → ℚ),
      j + n ≤ Pp →
      (∀ k < n, buf (k * pw + x) = ((Pp : ℚ)) ^ 2) →
      buf (n * pw + x) = ((j : ℚ)) ^ 2 →
      (passUpAux pw x n (buf, 2 * (j : ℚ) + 1)).1 =
        colPatch pw x 0 n (fun k => (((j + (n - k) : ℕ) : ℚ)) ^ 2) buf := by
  intro n
  induction n with
  | zero => intro j buf _ _ _; rw [colPatch_zero]; rfl
  | succ n ih =>
    intro j buf hjn hcells hbelow
    have hhere : buf (n * pw + x) = ((Pp : ℚ)) ^ 2 := hcells n (by omega)
    rcases Nat.lt_or_ge (j + 1) Pp with hlt | hge
    · have hltq : ((j : ℚ) + 1) ^ 2 < ((Pp : ℚ)) ^ 2 := by
        have hcast : (j : ℚ) + 1 < (Pp : ℚ) := by exact_mod_cast hlt
        have hj0 : (0 : ℚ) ≤ (j : ℚ) + 1 := by positivity
        nlinarith
      have hcond : buf ((n + 1) * pw + x) + (2 * (j : ℚ) + 1) < buf (n * pw + x) := by
        rw [hbelow, hhere]
        nlinarith
      rw [passUpAux, if_pos hcond]
      have hval : buf ((n + 1) * pw + x) + (2 * (j : ℚ) + 1) =
          (((j + 1 : ℕ) : ℚ)) ^ 2 := by
        rw [hbelow]
        push_cast
        ring
      have hstep2 : (2 * (j : ℚ) + 1) + 2 = 2 * ((j + 1 : ℕ) : ℚ) + 1 := by
        push_cast
        ring
      rw [hval, hstep2]
      rw [ih (j + 1) _ (by omega) ?_ ?_]
      · rw [colPatch_congr_g (show ∀ k < n,
            (((j + 1 + (n - k) : ℕ) : ℚ)) ^ 2 = (((j + (n + 1 - k) : ℕ) : ℚ)) ^ 2 from
          fun k hk => by rw [show j + 1 + (n - k) = j + (n + 1 - k) from by omega])]
        exact colPatch_top hx n (fun k => (((j + (n + 1 - k) : ℕ) : ℚ)) ^ 2) buf _
          (by show (((j + 1 : ℕ) : ℚ)) ^ 2 = (((j + (n + 1 - n) : ℕ) : ℚ)) ^ 2
              rw [show j + (n + 1 - n) = j + 1 from by omega])
      · intro k hk
        rw [Function.update_noteq fun hik => by
          have := colIdx_inj hx hik
          omega]
        exact hcells k (by omega)
      · rw [Function.update_same]
    · have hjeq : j + 1 = Pp := by omega
      have hn0 : n = 0 := by omega
      subst hn0
      have hcond : ¬(buf ((0 + 1) * pw + x) + (2 * (j : ℚ) + 1) <
          buf (0 * pw + x)) := by
        push_neg
        rw [hbelow, hhere, ← hjeq]
        push_cast
        nlinarith
      rw [passUpAux, if_neg hcond]
      rw [colPatch_one_eq hx _ _ (by rw [hhere, ← hjeq])]
      rfl

/-! ### The synthetic fully-inked square glyph

C5's test input: a `W × W` glyph whose rasterizer reports coverage 1 at
every pixel of its bounding box.  (`rusttype` feeds the callback row by
row; only the set of triples matters for the seeds.) -/

/-- The coverage mask of a fully-inked `W × W` glyph. -/
def fullSquareMask (W : ℕ) : List (ℕ × ℕ × ℚ) :=
  (List.range W).flatMap fun y => (List.range W).map fun x => (x, y, 1)

lemma mem_fullSquareMask {W : ℕ} {t : ℕ × ℕ × ℚ} :
    t ∈ fullSquareMask W ↔ t.1 < W ∧ t.2.1 < W ∧ t.2.2 = 1 := by
  obtain ⟨tx, ty, tv⟩ := t
  simp only [fullSquareMask, List.mem_flatMap, List.mem_map, List.mem_range,
    Prod.mk.injEq]
  constructor
  · rintro ⟨y, hy, x, hx, rfl, rfl, rfl⟩
    exact ⟨hx, hy, rfl⟩
  · rintro ⟨hx, hy, rfl⟩
    exact ⟨ty, hy, tx, hx, rfl, rfl, rfl⟩

/-- The outside seeds of the synthetic square: `0` on the ink box, the
saturation value `P²` everywhere else. -/
lemma seedOutside_fullSquare {P W pw : ℕ} (hpw : W + P ≤ pw) {x : ℕ}
    (hx : x < pw) (y : ℕ) :
    seedOutside ((P : ℚ) ^ 2) P pw (fullSquareMask W) (y * pw + x) =
      if P ≤ x ∧ x < P + W ∧ P ≤ y ∧ y < P + W then 0 else (P : ℚ) ^ 2 := by
  by_cases hink : P ≤ x ∧ x < P + W ∧ P ≤ y ∧ y < P + W
  · rw [if_pos hink]
    apply foldl_update_hit
    · refine ⟨(x - P, y - P, 1), mem_fullSquareMask.mpr
        ⟨by show x - P < W; omega, by show y - P < W; omega, rfl⟩, ?_⟩
      show (P + (y - P)) * pw + (P + (x - P)) = y * pw + x
      rw [show P + (y - P) = y from by omega, show P + (x - P) = x from by omega]
    · intro t ht _
      obtain ⟨_, _, hv⟩ := mem_fullSquareMask.mp ht
      rw [hv, if_neg (by norm_num)]
  · rw [if_neg hink]
    apply foldl_update_untouched
    intro t ht hkey
    obtain ⟨htx, hty, _⟩ := mem_fullSquareMask.mp ht
    have hxlt : P + t.1 < pw := by omega
    have hmod : ((P + t.2.1) * pw + (P + t.1)) % pw = P + t.1 := colIdx_mod hxlt _
    have hdiv : ((P + t.2.1) * pw + (P + t.1)) / pw = P + t.2.1 := colIdx_div hxlt _
    rw [hkey, colIdx_mod hx] at hmod
    rw [hkey, colIdx_div hx] at hdiv
    omega

/-- The inside seeds of the synthetic square: `P²` on the ink box, `0`
everywhere else. -/
lemma seedInside_fullSquare {P W pw : ℕ} (hpw : W + P ≤ pw) {x : ℕ}
    (hx : x < pw) (y : ℕ) :
    seedInside ((P : ℚ) ^ 2) P pw (fullSquareMask W) (y * pw + x) =
      if P ≤ x ∧ x < P + W ∧ P ≤ y ∧ y < P + W then (P : ℚ) ^ 2 else 0 := by
  by_cases hink : P ≤ x ∧ x < P + W ∧ P ≤ y ∧ y < P + W
  · rw [if_pos hink]
    apply foldl_update_hit
    · refine ⟨(x - P, y - P, 1), mem_fullSquareMask.mpr
        ⟨by show x - P < W; omega, by show y - P < W; omega, rfl⟩, ?_⟩
      show (P + (y - P)) * pw + (P + (x - P)) = y * pw + x
      rw [show P + (y - P) = y from by omega, show P + (x - P) = x from by omega]
    · intro t ht _
      obtain ⟨_, _, hv⟩ := mem_fullSquareMask.mp ht
      rw [hv, if_neg (by norm_num)]
  · rw [if_neg hink]
    apply foldl_update_untouched
    intro t ht hkey
    obtain ⟨htx, hty, _⟩ := mem_fullSquareMask.mp ht
    have hxlt : P + t.1 < pw := by omega
    have hmod : ((P + t.2.1) * pw + (P + t.1)) % pw = P + t.1 := colIdx_mod hxlt _
    have hdiv : ((P + t.2.1) * pw + (P + t.1)) / pw = P + t.2.1 := colIdx_div hxlt _
    rw [hkey, colIdx_mod hx] at hmod
    rw [hkey, colIdx_div hx] at hdiv
    omega

/-- On an ink column of the synthetic 3×3 square, the fully passed
outside buffer holds `P²` at the top edge (row 0) and `0` at the centre
row `P+1`. -/
lemma outside_col_vals (P : ℕ) (hP : 1 ≤ P) {c : ℕ} (hcP : P ≤ c)
    (hc3 : c < P + 3) :
    passUp (2*P+3) c (2*P+3)
      (passDown (2*P+3) c (2*P+3)
        (seedOutside ((P:ℚ)^2) P (2*P+3) (fullSquareMask 3)))
      (0 * (2*P+3) + c) = (P:ℚ)^2 ∧
    passUp (2*P+3) c (2*P+3)
      (passDown (2*P+3) c (2*P+3)
        (seedOutside ((P:ℚ)^2) P (2*P+3) (fullSquareMask 3)))
      ((P+1) * (2*P+3) + c) = 0 := by
  have hc : c < 2*P+3 := by omega
  set pw := 2*P+3 with hpwdef
  set seedO := seedOutside ((P:ℚ)^2) P pw (fullSquareMask 3) with hseedO
  have hseed : ∀ y', seedO (y' * pw + c) =
      if P ≤ y' ∧ y' < P + 3 then 0 else (P:ℚ)^2 := by
    intro y'
    rw [hseedO, seedOutside_fullSquare (by omega) hc]
    by_cases hy' : P ≤ y' ∧ y' < P + 3
    · rw [if_pos ⟨hcP, by omega, hy'.1, by omega⟩, if_pos hy']
    · rw [if_neg fun h => hy' ⟨h.2.2.1, by omega⟩, if_neg hy']
  -- the down pass: a no-update stretch over rows 1 … P+2, then a climb
  -- over the bottom padding rows P+3 … 2P+2
  have hdown : passDown pw c (2*P+3)  seedO =
      colPatch pw c (P+3) P (fun k => (((k + 1 : ℕ)):ℚ)^2) seedO := by
    unfold passDown
    rw [show (2*P+3) - 1 = (P+2) + P from by omega]
    rw [passDownAux_noupdate seedO (P+2) 1 P ?_]
    · have hclimb := passDownAux_climb hc P P 0 (P+3) 0 seedO (by omega) ?_ ?_
      · rw [show (2:ℚ) * ((0:ℕ):ℚ) + 1 = 1 from by norm_num] at hclimb
        simp only [Nat.add_zero, Nat.zero_add] at hclimb
        rw [show 1 + (P+2) = P + 3 from by omega, hclimb]
        rfl
      · intro k hk
        rw [hseed (P + 3 + k), if_neg (by omega)]
      · rw [show P + 3 - 1 = P + 2 from by omega, hseed (P + 2),
          if_pos ⟨by omega, by omega⟩]
        norm_num
    · intro k hk
      have h1k : 1 + k - 1 = k := by omega
      rw [h1k, hseed (1 + k), hseed k]
      by_cases hb1 : P ≤ 1 + k ∧ 1 + k < P + 3
      · rw [if_pos hb1]
        by_cases hb2 : P ≤ k ∧ k < P + 3
        · rw [if_pos hb2]
        · rw [if_neg hb2]
          positivity
      · rw [if_neg hb1]
        by_cases hb2 : P ≤ k ∧ k < P + 3
        · exfalso
          omega
        · rw [if_neg hb2]
  set D := colPatch pw c (P+3) P (fun k => (((k + 1 : ℕ)):ℚ)^2) seedO with hDdef
  have hD : ∀ y', D (y' * pw + c) =
      if P + 3 ≤ y' ∧ y' < 2*P+3 then (((y' - (P+2) : ℕ)):ℚ)^2
      else if P ≤ y' ∧ y' < P + 3 then 0
      else (P:ℚ)^2 := by
    intro y'
    by_cases hy' : P + 3 ≤ y' ∧ y' < 2*P+3
    · rw [hDdef, colPatch_at hc _ _ (by omega) (by omega), if_pos hy']
      rw [show y' - (P + 3) + 1 = y' - (P + 2) from by omega]
    · rw [hDdef, colPatch_off_row hc _ _ (by omega), if_neg hy', hseed]
  -- the up pass: a no-update stretch over rows 2P+1 … P, then a climb
  -- over the top padding rows P-1 … 0
  have hup : passUp pw c (2*P+3) D =
      colPatch pw c 0 P (fun k => (((P - k : ℕ)):ℚ)^2) D := by
    unfold passUp
    rw [show (2*P+3) - 1 = (P+2) + P from by omega]
    rw [passUpAux_noupdate D (P+2) P ?_]
    · have hclimb := passUpAux_climb hc P P 0 D (by omega) ?_ ?_
      · rw [show (2:ℚ) * ((0:ℕ):ℚ) + 1 = 1 from by norm_num] at hclimb
        simp only [Nat.zero_add] at hclimb
        rw [hclimb]
      · intro k hk
        rw [hD k, if_neg (by omega), if_neg (by omega)]
      · rw [hD P, if_neg (by omega), if_pos ⟨le_refl P, by omega⟩]
        norm_num
    · intro k hk
      rw [hD (P + k), hD (P + k + 1)]
      by_cases hk2 : k < 2
      · rw [if_neg (by omega), if_pos ⟨by omega, by omega⟩,
          if_neg (by omega), if_pos ⟨by omega, by omega⟩]
      · by_cases hk3 : k = 2
        · subst hk3
          rw [if_neg (by omega), if_pos ⟨by omega, by omega⟩,
            if_pos ⟨by omega, by omega⟩]
          positivity
        · rw [if_pos ⟨by omega, by omega⟩, if_pos ⟨by omega, by omega⟩]
          have hle : P + k - (P + 2) ≤ P + k + 1 - (P + 2) := by omega
          exact_mod_cast Nat.pow_le_pow_left hle 2
  rw [hdown, hup]
  constructor
  · rw [colPatch_at hc _ _ (by omega) (by omega)]
    norm_num
  · rw [colPatch_off_row hc _ _ (Or.inr (by omega)), hD (P+1),
      if_neg (by omega), if_pos ⟨by omega, by omega⟩]

lemma passUpAux_step_pos {pw x fuel : ℕ} {s : (ℕ → ℚ) × ℚ}
    (hc : s.1 ((fuel + 1) * pw + x) + s.2 < s.1 (fuel * pw + x)) :
    passUpAux pw x (fuel + 1) s =
      passUpAux pw x fuel
        (Function.update s.1 (fuel * pw + x) (s.1 ((fuel + 1) * pw + x) + s.2),
         s.2 + 2) := by
  rw [passUpAux, if_pos hc]

lemma passUpAux_step_neg {pw x fuel : ℕ} {s : (ℕ → ℚ) × ℚ}
    (hc : ¬(s.1 ((fuel + 1) * pw + x) + s.2 < s.1 (fuel * pw + x))) :
    passUpAux pw x (fuel + 1) s = passUpAux pw x fuel (s.1, 1) := by
  rw [passUpAux, if_neg hc]

/-- Exhausting the down pass with a no-update stretch. -/
lemma passDownAux_noupdate_final {pw x : ℕ} (buf : ℕ → ℚ) (n y : ℕ) (s : ℚ)
    (hs : 0 ≤ s) (hn : 1 ≤ n)
    (hle : ∀ k < n, buf ((y + k) * pw + x) ≤ buf ((y + k - 1) * pw + x)) :
    (passDownAux pw x y n (buf, s)).1 = buf := by
  have h := passDownAux_noupdate_s buf n y 0 s hs hn hle
  rw [Nat.add_zero] at h
  rw [h]
  rfl

/-- Exhausting the up pass with a no-update stretch. -/
lemma passUpAux_noupdate_final {pw x : ℕ} (buf : ℕ → ℚ) (n : ℕ) (s : ℚ)
    (hs : 0 ≤ s) (hn : 1 ≤ n)
    (hle : ∀ k < n, buf (k * pw + x) ≤ buf ((k + 1) * pw + x)) :
    (passUpAux pw x n (buf, s)).1 = buf := by
  have h := passUpAux_noupdate_s buf n 0 s hs hn fun k hk => by
    have := hle k hk
    rwa [Nat.zero_add]
  rw [Nat.add_zero] at h
  rw [h]
  rfl

/-- The up pass through the inside band of the synthetic square (rows
`q … q+2` holding `1, 4, v₃` with a zero seed below): only the bottom band
row is updated (to 1); the centre row keeps its value 4. -/
lemma inside_up_band {pw x : ℕ} (hx : x < pw) (q : ℕ) (D : ℕ → ℚ) (v₃ : ℚ)
    (hv : 4 ≤ v₃)
    (h3 : D ((q + 3) * pw + x) = 0) (h2 : D ((q + 2) * pw + x) = v₃)
    (h1 : D ((q + 1) * pw + x) = 4) (h0 : D (q * pw + x) = 1) :
    passUpAux pw x (q + 3) (D, 1) =
      passUpAux pw x q (Function.update D ((q + 2) * pw + x) 1, 1) := by
  have hcone : ((D, (1:ℚ)).1 ((q + 2 + 1) * pw + x) + (D, (1:ℚ)).2 <
      (D, (1:ℚ)).1 ((q + 2) * pw + x)) := by
    show D ((q + 2 + 1) * pw + x) + 1 < D ((q + 2) * pw + x)
    rw [show q + 2 + 1 = q + 3 from by omega, h3, h2]
    linarith
  rw [show q + 3 = (q + 2) + 1 from by omega,
    @passUpAux_step_pos pw x (q + 2) (D, 1) hcone]
  dsimp only
  rw [show q + 2 + 1 = q + 3 from by omega, h3,
    show (0:ℚ) + 1 = 1 from by norm_num, show (1:ℚ) + 2 = 3 from by norm_num]
  set idx2 := (q + 2) * pw + x with hidx2
  have hD1a : Function.update D idx2 1 ((q + 1) * pw + x) = 4 := by
    rw [Function.update_noteq fun hk => by
      rw [hidx2] at hk
      have := colIdx_inj hx hk
      omega]
    exact h1
  have hD1b : Function.update D idx2 1 (q * pw + x) = 1 := by
    rw [Function.update_noteq fun hk => by
      rw [hidx2] at hk
      have := colIdx_inj hx hk
      omega]
    exact h0
  have hcond2 : ¬((Function.update D idx2 1, (3:ℚ)).1 ((q + 1 + 1) * pw + x) +
      (Function.update D idx2 1, (3:ℚ)).2 <
      (Function.update D idx2 1, (3:ℚ)).1 ((q + 1) * pw + x)) := by
    show ¬(Function.update D idx2 1 ((q + 1 + 1) * pw + x) + 3 <
      Function.update D idx2 1 ((q + 1) * pw + x))
    rw [show (q + 1 + 1) * pw + x = idx2 from by
        rw [show q + 1 + 1 = q + 2 from by omega, hidx2],
      Function.update_same, hD1a]
    linarith
  rw [show q + 2 = (q + 1) + 1 from by omega,
    @passUpAux_step_neg pw x (q + 1) _ hcond2]
  dsimp only
  have hcond3 : ¬((Function.update D idx2 1, (1:ℚ)).1 ((q + 1) * pw + x) +
      (Function.update D idx2 1, (1:ℚ)).2 <
      (Function.update D idx2 1, (1:ℚ)).1 (q * pw + x)) := by
    show ¬(Function.update D idx2 1 ((q + 1) * pw + x) + 1 <
      Function.update D idx2 1 (q * pw + x))
    rw [hD1a, hD1b]
    linarith
  rw [@passUpAux_step_neg pw x q _ hcond3]

lemma passDownAux_step_pos {pw x y fuel : ℕ} {s : (ℕ → ℚ) × ℚ}
    (hc : s.1 ((y - 1) * pw + x) + s.2 < s.1 (y * pw + x)) :
    passDownAux pw x y (fuel + 1) s =
      passDownAux pw x (y + 1) fuel
        (Function.update s.1 (y * pw + x) (s.1 ((y - 1) * pw + x) + s.2),
         s.2 + 2) := by
  rw [passDownAux, if_pos hc]

lemma passDownAux_step_neg {pw x y fuel : ℕ} {s : (ℕ → ℚ) × ℚ}
    (hc : ¬(s.1 ((y - 1) * pw + x) + s.2 < s.1 (y * pw + x))) :
    passDownAux pw x y (fuel + 1) s = passDownAux pw x (y + 1) fuel (s.1, 1) := by
  rw [passDownAux, if_neg hc]

/-- Evaluating a single-cell column update at another cell of the column. -/
lemma update_col_at {pw x : ℕ} (hx : x < pw) (buf : ℕ → ℚ) (v : ℚ) (y y' : ℕ) :
    Function.update buf (y * pw + x) v (y' * pw + x) =
      if y' = y then v else buf (y' * pw + x) := by
  by_cases h : y' = y
  · rw [if_pos h, h, Function.update_same]
  · rw [if_neg h, Function.update_noteq fun hk => h (colIdx_inj hx hk)]

/-- The down pass over an ink column of the synthetic 3×3 square: the seed
column `(0,…,0,P²,P²,P²,0,…,0)` becomes `(0,…,0,1,4,v₃,0,…,0)` for some
`v₃ ≥ 4` (`v₃ = P²` saturated for `P ≤ 3`, else `9`). -/
lemma inside_down_vals (P : ℕ) (hP : 2 ≤ P) {c : ℕ} (hcP : P ≤ c)
    (hc3 : c < P + 3) :
    ∃ v₃ : ℚ, 4 ≤ v₃ ∧ ∀ y',
      passDown (2*P+3) c (2*P+3)
        (seedInside ((P:ℚ)^2) P (2*P+3) (fullSquareMask 3)) (y' * (2*P+3) + c) =
        (if y' = P then 1 else if y' = P + 1 then 4
         else if y' = P + 2 then v₃ else 0) := by
  have hc : c < 2*P+3 := by omega
  have hP2 : (4:ℚ) ≤ (P:ℚ)^2 := by
    have h2 : (2:ℚ) ≤ (P:ℚ) := by exact_mod_cast hP
    nlinarith
  set pw := 2*P+3 with hpwdef
  set seedI := seedInside ((P:ℚ)^2) P pw (fullSquareMask 3) with hseedIdef
  have hseed : ∀ y', seedI (y' * pw + c) =
      if P ≤ y' ∧ y' < P + 3 then (P:ℚ)^2 else 0 := by
    intro y'
    rw [hseedIdef, seedInside_fullSquare (by omega) hc]
    by_cases hy' : P ≤ y' ∧ y' < P + 3
    · rw [if_pos ⟨hcP, by omega, hy'.1, by omega⟩, if_pos hy']
    · rw [if_neg fun h => hy' ⟨h.2.2.1, by omega⟩, if_neg hy']
  set B1 : ℕ → ℚ := Function.update seedI (P * pw + c) 1 with hB1def
  have hB1 : ∀ y', B1 (y' * pw + c) =
      if y' = P then 1 else if P ≤ y' ∧ y' < P + 3 then (P:ℚ)^2 else 0 := by
    intro y'
    rw [hB1def, update_col_at hc]
    by_cases h : y' = P
    · rw [if_pos h, if_pos h]
    · rw [if_neg h, if_neg h, hseed]
  have hcond1 : (seedI, (1:ℚ)).1 ((P - 1) * pw + c) + (seedI, (1:ℚ)).2 <
      (seedI, (1:ℚ)).1 (P * pw + c) := by
    show seedI ((P - 1) * pw + c) + 1 < seedI (P * pw + c)
    rw [hseed (P - 1), hseed P, if_neg (by omega), if_pos (by omega)]
    linarith
  have hcommon : passDown pw c pw seedI =
      (passDownAux pw c (P + 1) (P + 2) (B1, 3)).1 := by
    unfold passDown
    rw [show pw - 1 = (P - 1) + (P + 3) from by omega]
    rw [passDownAux_noupdate seedI (P - 1) 1 (P + 3) ?_]
    · rw [show 1 + (P - 1) = P from by omega,
        show P + 3 = (P + 2) + 1 from by omega,
        @passDownAux_step_pos pw c P (P + 2) (seedI, 1) hcond1]
      dsimp only
      have h0s : seedI ((P - 1) * pw + c) = 0 := by
        rw [hseed (P - 1), if_neg (by omega)]
      rw [h0s, show (0:ℚ) + 1 = 1 from by norm_num,
        show (1:ℚ) + 2 = 3 from by norm_num, ← hB1def]
    · intro k hk
      rw [show 1 + k - 1 = k from by omega, hseed (1 + k), hseed k,
        if_neg (by omega), if_neg (by omega)]
  by_cases hP3 : 3 ≤ P
  · -- the band row `P+1` is strictly improved to `1 + 3 = 4`
    set B2 : ℕ → ℚ := Function.update B1 ((P + 1) * pw + c) 4 with hB2def
    have hB2 : ∀ y', B2 (y' * pw + c) =
        if y' = P + 1 then 4 else B1 (y' * pw + c) := by
      intro y'
      rw [hB2def]
      exact update_col_at hc B1 4 (P + 1) y'
    have hcond2 : (B1, (3:ℚ)).1 ((P + 1 - 1) * pw + c) + (B1, (3:ℚ)).2 <
        (B1, (3:ℚ)).1 ((P + 1) * pw + c) := by
      show B1 ((P + 1 - 1) * pw + c) + 3 < B1 ((P + 1) * pw + c)
      rw [show P + 1 - 1 = P from by omega, hB1 P, if_pos rfl, hB1 (P + 1),
        if_neg (by omega), if_pos (by omega)]
      have h3c : (3:ℚ) ≤ (P:ℚ) := by exact_mod_cast hP3
      nlinarith
    have h1v : B1 ((P + 1 - 1) * pw + c) = 1 := by
      rw [show P + 1 - 1 = P from by omega, hB1 P, if_pos rfl]
    have hstep2 : (passDownAux pw c (P + 1) (P + 2) (B1, 3)).1 =
        (passDownAux pw c (P + 1 + 1) (P + 1) (B2, 5)).1 := by
      rw [show P + 2 = (P + 1) + 1 from by omega,
        @passDownAux_step_pos pw c (P + 1) (P + 1) (B1, 3) hcond2]
      dsimp only
      rw [h1v, show (1:ℚ) + 3 = 4 from by norm_num,
        show (3:ℚ) + 2 = 5 from by norm_num, ← hB2def]
    by_cases hP4 : 4 ≤ P
    · -- the band row `P+2` is strictly improved to `4 + 5 = 9`
      set B3 : ℕ → ℚ := Function.update B2 ((P + 2) * pw + c) 9 with hB3def
      have hB3 : ∀ y', B3 (y' * pw + c) =
          if y' = P + 2 then 9 else B2 (y' * pw + c) := by
        intro y'
        rw [hB3def]
        exact update_col_at hc B2 9 (P + 2) y'
      have hcond3 : (B2, (5:ℚ)).1 ((P + 1 + 1 - 1) * pw + c) + (B2, (5:ℚ)).2 <
          (B2, (5:ℚ)).1 ((P + 1 + 1) * pw + c) := by
        show B2 ((P + 1 + 1 - 1) * pw + c) + 5 < B2 ((P + 1 + 1) * pw + c)
        rw [show P + 1 + 1 - 1 = P + 1 from by omega,
          show P + 1 + 1 = P + 2 from by omega, hB2 (P + 1), if_pos rfl,
          hB2 (P + 2), if_neg (by omega), hB1 (P + 2), if_neg (by omega),
          if_pos (by omega)]
        have h4c : (4:ℚ) ≤ (P:ℚ) := by exact_mod_cast hP4
        nlinarith
      have h4v : B2 ((P + 1 + 1 - 1) * pw + c) = 4 := by
        rw [show P + 1 + 1 - 1 = P + 1 from by omega, hB2 (P + 1), if_pos rfl]
      have hpass34 : (passDownAux pw c (P + 1 + 1) (P + 1) (B2, 5)).1 = B3 := by
        rw [@passDownAux_step_pos pw c (P + 1 + 1) P (B2, 5) hcond3]
        dsimp only
        rw [h4v, show (4:ℚ) + 5 = 9 from by norm_num,
          show (5:ℚ) + 2 = 7 from by norm_num,
          show P + 1 + 1 = P + 2 from by omega, ← hB3def]
        apply passDownAux_noupdate_final B3 P (P + 2 + 1) 7 (by norm_num) (by omega)
        intro k hk
        rw [show P + 2 + 1 = P + 3 from by omega]
        have hLHS : B3 ((P + 3 + k) * pw + c) = 0 := by
          rw [hB3 (P + 3 + k), if_neg (by omega), hB2 (P + 3 + k),
            if_neg (by omega), hB1 (P + 3 + k), if_neg (by omega),
            if_neg (by omega)]
        rw [hLHS, hB3 (P + 3 + k - 1)]
        split_ifs with h
        · norm_num
        · rw [hB2 (P + 3 + k - 1), if_neg (by omega), hB1 (P + 3 + k - 1),
            if_neg (by omega)]
          split_ifs with h2
          · exact sq_nonneg _
          · exact le_refl 0
      refine ⟨9, by norm_num, fun y' => ?_⟩
      rw [hcommon, hstep2, hpass34]
      by_cases h2 : y' = P + 2
      · rw [hB3 y', if_pos h2, if_neg (by omega), if_neg (by omega), if_pos h2]
      · by_cases h1 : y' = P + 1
        · rw [hB3 y', if_neg h2, hB2 y', if_pos h1, if_neg (by omega), if_pos h1]
        · by_cases h0 : y' = P
          · rw [hB3 y', if_neg h2, hB2 y', if_neg h1, hB1 y', if_pos h0,
              if_pos h0]
          · rw [hB3 y', if_neg h2, hB2 y', if_neg h1, hB1 y', if_neg h0,
              if_neg (by omega), if_neg h0, if_neg h1, if_neg h2]
    · -- `P = 3`: the band row `P+2` saturates at `P² = 9`
      have hcond3 : ¬((B2, (5:ℚ)).1 ((P + 1 + 1 - 1) * pw + c) + (B2, (5:ℚ)).2 <
          (B2, (5:ℚ)).1 ((P + 1 + 1) * pw + c)) := by
        show ¬(B2 ((P + 1 + 1 - 1) * pw + c) + 5 < B2 ((P + 1 + 1) * pw + c))
        rw [show P + 1 + 1 - 1 = P + 1 from by omega,
          show P + 1 + 1 = P + 2 from by omega, hB2 (P + 1), if_pos rfl,
          hB2 (P + 2), if_neg (by omega), hB1 (P + 2), if_neg (by omega),
          if_pos (by omega)]
        have h3c : (P:ℚ) = 3 := by exact_mod_cast (show P = 3 from by omega)
        rw [h3c]
        norm_num
      have hpass3 : (passDownAux pw c (P + 1 + 1) (P + 1) (B2, 5)).1 = B2 := by
        rw [@passDownAux_step_neg pw c (P + 1 + 1) P (B2, 5) hcond3]
        dsimp only
        apply passDownAux_noupdate_final B2 P (P + 1 + 1 + 1) 1
          (by norm_num) (by omega)
        intro k hk
        rw [show P + 1 + 1 + 1 = P + 3 from by omega]
        have hLHS : B2 ((P + 3 + k) * pw + c) = 0 := by
          rw [hB2 (P + 3 + k), if_neg (by omega), hB1 (P + 3 + k),
            if_neg (by omega), if_neg (by omega)]
        rw [hLHS, hB2 (P + 3 + k - 1), if_neg (by omega), hB1 (P + 3 + k - 1),
          if_neg (by omega)]
        split_ifs with h
        · exact sq_nonneg _
        · exact le_refl 0
      refine ⟨(P:ℚ)^2, hP2, fun y' => ?_⟩
      rw [hcommon, hstep2, hpass3]
      by_cases h1 : y' = P + 1
      · rw [hB2 y', if_pos h1, if_neg (by omega), if_pos h1]
      · by_cases h0 : y' = P
        · rw [hB2 y', if_neg h1, hB1 y', if_pos h0, if_pos h0]
        · by_cases h2 : y' = P + 2
          · rw [hB2 y', if_neg h1, hB1 y', if_neg h0, if_pos (by omega),
              if_neg h0, if_neg h1, if_pos h2]
          · rw [hB2 y', if_neg h1, hB1 y', if_neg h0, if_neg (by omega),
              if_neg h0, if_neg h1, if_neg h2]
  · -- `P = 2`: both band rows `P+1`, `P+2` saturate at `P² = 4`
    have hcond2 : ¬((B1, (3:ℚ)).1 ((P + 1 - 1) * pw + c) + (B1, (3:ℚ)).2 <
        (B1, (3:ℚ)).1 ((P + 1) * pw + c)) := by
      show ¬(B1 ((P + 1 - 1) * pw + c) + 3 < B1 ((P + 1) * pw + c))
      rw [show P + 1 - 1 = P from by omega, hB1 P, if_pos rfl, hB1 (P + 1),
        if_neg (by omega), if_pos (by omega)]
      have h2c : (P:ℚ) = 2 := by exact_mod_cast (show P = 2 from by omega)
      rw [h2c]
      norm_num
    have hpass2 : (passDownAux pw c (P + 1) (P + 2) (B1, 3)).1 = B1 := by
      rw [show P + 2 = (P + 1) + 1 from by omega,
        @passDownAux_step_neg pw c (P + 1) (P + 1) (B1, 3) hcond2]
      dsimp only
      have hcond3 : ¬((B1, (1:ℚ)).1 ((P + 1 + 1 - 1) * pw + c) + (B1, (1:ℚ)).2 <
          (B1, (1:ℚ)).1 ((P + 1 + 1) * pw + c)) := by
        show ¬(B1 ((P + 1 + 1 - 1) * pw + c) + 1 < B1 ((P + 1 + 1) * pw + c))
        rw [show P + 1 + 1 - 1 = P + 1 from by omega,
          show P + 1 + 1 = P + 2 from by omega, hB1 (P + 1), if_neg (by omega),
          if_pos (by omega), hB1 (P + 2), if_neg (by omega), if_pos (by omega)]
        push_neg
        linarith
      rw [@passDownAux_step_neg pw c (P + 1 + 1) P (B1, 1) hcond3]
      dsimp only
      apply passDownAux_noupdate_final B1 P (P + 1 + 1 + 1) 1
        (by norm_num) (by omega)
      intro k hk
      rw [show P + 1 + 1 + 1 = P + 3 from by omega]
      have hLHS : B1 ((P + 3 + k) * pw + c) = 0 := by
        rw [hB1 (P + 3 + k), if_neg (by omega), if_neg (by omega)]
      rw [hLHS, hB1 (P + 3 + k - 1), if_neg (by omega)]
      split_ifs with h
      · exact sq_nonneg _
      · exact le_refl 0
    refine ⟨(P:ℚ)^2, hP2, fun y' => ?_⟩
    rw [hcommon, hpass2]
    have h2q : ((P:ℚ))^2 = 4 := by
      rw [show (P:ℚ) = 2 from by exact_mod_cast (show P = 2 from by omega)]
      norm_num
    by_cases h0 : y' = P
    · rw [hB1 y', if_pos h0, if_pos h0]
    · by_cases h1 : y' = P + 1
      · rw [hB1 y', if_neg h0, if_pos (by omega), h2q, if_neg h0, if_pos h1]
      · by_cases h2 : y' = P + 2
        · rw [hB1 y', if_neg h0, if_pos (by omega), if_neg h0, if_neg h1,
            if_pos h2]
        · rw [hB1 y', if_neg h0, if_neg (by omega), if_neg h0, if_neg h1,
            if_neg h2]

/-- On an ink column of the synthetic 3×3 square, the fully passed inside
buffer holds `4` at the centre row `P+1`: the up pass only rewrites the
bottom band row, leaving the centre's down-pass value in place. -/
lemma inside_col_center (P : ℕ) (hP : 2 ≤ P) {c : ℕ} (hcP : P ≤ c)
    (hc3 : c < P + 3) :
    passUp (2*P+3) c (2*P+3)
      (passDown (2*P+3) c (2*P+3)
        (seedInside ((P:ℚ)^2) P (2*P+3) (fullSquareMask 3)))
      ((P+1) * (2*P+3) + c) = 4 := by
  have hc : c < 2*P+3 := by omega
  obtain ⟨v₃, hv₃, hD⟩ := inside_down_vals P hP hcP hc3
  set D := passDown (2*P+3) c (2*P+3)
    (seedInside ((P:ℚ)^2) P (2*P+3) (fullSquareMask 3)) with hDdef
  unfold passUp
  rw [show (2*P+3) - 1 = (P - 1) + (P + 3) from by omega]
  rw [passUpAux_noupdate D (P - 1) (P + 3) ?_]
  · have h3 : D ((P + 3) * (2*P+3) + c) = 0 := by
      rw [hD (P + 3), if_neg (by omega), if_neg (by omega), if_neg (by omega)]
    have h2 : D ((P + 2) * (2*P+3) + c) = v₃ := by
      rw [hD (P + 2), if_neg (by omega), if_neg (by omega), if_pos rfl]
    have h1 : D ((P + 1) * (2*P+3) + c) = 4 := by
      rw [hD (P + 1), if_neg (by omega), if_pos rfl]
    have h0 : D (P * (2*P+3) + c) = 1 := by
      rw [hD P, if_pos rfl]
    rw [inside_up_band hc P D v₃ hv₃ h3 h2 h1 h0]
    rw [passUpAux_noupdate_final (Function.update D ((P + 2) * (2*P+3) + c) 1) P 1
      (by norm_num) (by omega) ?_]
    · rw [update_col_at hc, if_neg (by omega), h1]
    · intro k hk
      rw [update_col_at hc, update_col_at hc, if_neg (by omega),
        if_neg (by omega), hD k, if_neg (by omega), if_neg (by omega),
        if_neg (by omega), hD (k + 1)]
      by_cases h : k + 1 = P
      · rw [if_pos h]
        norm_num
      · rw [if_neg h, if_neg (by omega), if_neg (by omega)]
  · intro k hk
    rw [hD (P + 3 + k), hD (P + 3 + k + 1), if_neg (by omega), if_neg (by omega),
      if_neg (by omega), if_neg (by omega), if_neg (by omega), if_neg (by omega)]

/-- The outside field of the synthetic square at the top edge row `0` and
the centre row `P+1`: `0` exactly at the ink columns of the centre row,
`P²` everywhere else. -/
lemma outsideField_at {P : ℕ} (hP : 1 ≤ P) {x : ℕ} (hx : x < 2*P+3) (y : ℕ)
    (hy : y = 0 ∨ y = P + 1) :
    outsideField P (2*P+3) (2*P+3) (fullSquareMask 3) (y * (2*P+3) + x) =
      if P ≤ x ∧ x < P + 3 ∧ y = P + 1 then 0 else (P:ℚ)^2 := by
  unfold outsideField
  rw [show (2*P+3) - P * 2 = 3 from by omega]
  by_cases hink : P ≤ x ∧ x < P + 3
  · obtain ⟨ci, rfl⟩ : ∃ ci, x = ci + P := ⟨x - P, by omega⟩
    have hci : ci < 3 := by omega
    rw [vertPasses_col (fun xi hxi => by omega) hci]
    rcases hy with hy0 | hyP
    · subst hy0
      rw [if_neg (by omega)]
      exact (outside_col_vals P hP (by omega) (by omega)).1
    · subst hyP
      rw [if_pos ⟨by omega, by omega, rfl⟩]
      exact (outside_col_vals P hP (by omega) (by omega)).2
  · rw [if_neg (by omega)]
    unfold vertPasses
    rw [foldl_passes_frame (List.range 3) (fun a ha => by
        have halt := List.mem_range.mp ha
        exact ⟨by omega, fun hax => hink ⟨by omega, by omega⟩⟩)
      _ _ (colIdx_mod hx _)]
    rw [seedOutside_fullSquare (by omega) hx y, if_neg (by omega)]

/-- The inside field of the synthetic square at the centre row `P+1`: `4`
at the ink columns, `0` at the padding columns. -/
lemma insideField_row_center {P : ℕ} (hP : 2 ≤ P) {x : ℕ} (hx : x < 2*P+3) :
    insideField P (2*P+3) (2*P+3) (fullSquareMask 3) ((P+1) * (2*P+3) + x) =
      if P ≤ x ∧ x < P + 3 then 4 else 0 := by
  unfold insideField
  rw [show (2*P+3) - P * 2 = 3 from by omega]
  by_cases hink : P ≤ x ∧ x < P + 3
  · obtain ⟨ci, rfl⟩ : ∃ ci, x = ci + P := ⟨x - P, by omega⟩
    have hci : ci < 3 := by omega
    rw [vertPasses_col (fun xi hxi => by omega) hci, if_pos hink]
    exact inside_col_center P hP (by omega) (by omega)
  · rw [if_neg hink]
    unfold vertPasses
    rw [foldl_passes_frame (List.range 3) (fun a ha => by
        have halt := List.mem_range.mp ha
        exact ⟨by omega, fun hax => hink ⟨by omega, by omega⟩⟩)
      _ _ (colIdx_mod hx _)]
    rw [seedInside_fullSquare (by omega) hx (P+1), if_neg (by omega)]

/-- If a cell's own value is a lower bound for every candidate in its row,
the row scan keeps it. -/
lemma rowMinDist_eq (buf : ℕ → ℚ) (pw y x_here : ℕ)
    (hlb : ∀ x < pw, buf (y * pw + x_here) ≤
      buf (y * pw + x) + ((x : ℚ) - (x_here : ℚ)) ^ 2) :
    rowMinDist buf pw y x_here = buf (y * pw + x_here) := by
  unfold rowMinDist
  have hgen : ∀ (l : List ℕ), (∀ x ∈ l, x < pw) →
      l.foldl (fun dist_min x_there =>
        if buf (y * pw + x_there) + ((x_there : ℚ) - (x_here : ℚ)) ^ 2 < dist_min
        then buf (y * pw + x_there) + ((x_there : ℚ) - (x_here : ℚ)) ^ 2
        else dist_min) (buf (y * pw + x_here)) = buf (y * pw + x_here) := by
    intro l
    induction l with
    | nil => intro _; rfl
    | cons a rest ih =>
      intro hmem
      rw [List.foldl_cons,
        if_neg (not_lt.mpr (hlb a (hmem a (List.mem_cons_self _ _))))]
      exact ih fun x hx => hmem x (List.mem_cons_of_mem _ hx)
  exact hgen (List.range pw) fun x hx => List.mem_range.mp hx

/-- At the centre of the padding ring's outer edge, every outside-row
candidate is at the saturation value, so the signed distance is `-1`. -/
lemma sdf_edge_signed (P : ℕ) (hP : 1 ≤ P) :
    sdfSigned P (2*P+3) (2*P+3) (fullSquareMask 3) (P+1) 0 = -1 := by
  have hself : outsideField P (2*P+3) (2*P+3) (fullSquareMask 3)
      (0 * (2*P+3) + (P+1)) = (P:ℚ)^2 := by
    rw [outsideField_at hP (by omega) 0 (Or.inl rfl), if_neg (by omega)]
  have hlb : ∀ x < 2*P+3,
      outsideField P (2*P+3) (2*P+3) (fullSquareMask 3) (0 * (2*P+3) + (P+1)) ≤
      outsideField P (2*P+3) (2*P+3) (fullSquareMask 3) (0 * (2*P+3) + x) +
        ((x : ℚ) - ((P+1 : ℕ) : ℚ)) ^ 2 := by
    intro x hx
    rw [hself, outsideField_at hP hx 0 (Or.inl rfl), if_neg (by omega)]
    have hsq := sq_nonneg ((x:ℚ) - ((P+1 : ℕ) : ℚ))
    linarith
  have hmin : rowMinDist (outsideField P (2*P+3) (2*P+3) (fullSquareMask 3))
      (2*P+3) 0 (P+1) = (P:ℚ)^2 := by
    rw [rowMinDist_eq _ _ _ _ hlb, hself]
  have hpos : (0:ℚ) < (P:ℚ)^2 := by
    have h0 : (0:ℚ) < (P:ℚ) := by exact_mod_cast (show 0 < P from hP)
    exact pow_pos h0 2
  unfold sdfSigned
  dsimp only
  rw [hmin, div_self (ne_of_gt hpos),
    show qClamp (1:ℚ) 0 1 = 1 from by unfold qClamp; norm_num,
    if_pos (by norm_num : (0:ℚ) < 1)]

/-- The outer-edge centre pixel encodes byte `0`. -/
lemma sdf_edge_byte (P : ℕ) (hP : 1 ≤ P) :
    sdfPixelByte P (2*P+3) (2*P+3) (fullSquareMask 3) (P+1) 0 = 0 := by
  unfold sdfPixelByte
  rw [sdf_edge_signed P hP]
  norm_num [u8Round, rustRound, intToU8]

/-- The pixel one unit inside the ink boundary (the centre of the 3×3
square) has inside row minimum `4`, outside row minimum `0`, and thus
encodes the byte `round(((4/P² + 1)/2)·255)`. -/
lemma sdf_center_byte (P : ℕ) (hP : 2 ≤ P) :
    sdfPixelByte P (2*P+3) (2*P+3) (fullSquareMask 3) (P+1) (P+1) =
      u8Round ((4 / (P:ℚ)^2 + 1) / 2 * 255) := by
  have hP1 : 1 ≤ P := by omega
  have hpos : (0:ℚ) < (P:ℚ)^2 := by
    have h0 : (0:ℚ) < (P:ℚ) := by exact_mod_cast (show 0 < P from by omega)
    exact pow_pos h0 2
  have hP2 : (4:ℚ) ≤ (P:ℚ)^2 := by
    have h2 : (2:ℚ) ≤ (P:ℚ) := by exact_mod_cast hP
    nlinarith
  have hOutSelf : outsideField P (2*P+3) (2*P+3) (fullSquareMask 3)
      ((P+1) * (2*P+3) + (P+1)) = 0 := by
    rw [outsideField_at hP1 (by omega) (P+1) (Or.inr rfl),
      if_pos ⟨by omega, by omega, rfl⟩]
  have hOutLb : ∀ x < 2*P+3,
      outsideField P (2*P+3) (2*P+3) (fullSquareMask 3)
        ((P+1) * (2*P+3) + (P+1)) ≤
      outsideField P (2*P+3) (2*P+3) (fullSquareMask 3) ((P+1) * (2*P+3) + x) +
        ((x : ℚ) - ((P+1 : ℕ) : ℚ)) ^ 2 := by
    intro x hx
    rw [hOutSelf, outsideField_at hP1 hx (P+1) (Or.inr rfl)]
    have hsq := sq_nonneg ((x:ℚ) - ((P+1 : ℕ) : ℚ))
    split_ifs
    · linarith
    · linarith
  have hOutMin : rowMinDist (outsideField P (2*P+3) (2*P+3) (fullSquareMask 3))
      (2*P+3) (P+1) (P+1) = 0 := by
    rw [rowMinDist_eq _ _ _ _ hOutLb, hOutSelf]
  have hInSelf : insideField P (2*P+3) (2*P+3) (fullSquareMask 3)
      ((P+1) * (2*P+3) + (P+1)) = 4 := by
    rw [insideField_row_center hP (by omega), if_pos ⟨by omega, by omega⟩]
  have hInLb : ∀ x < 2*P+3,
      insideField P (2*P+3) (2*P+3) (fullSquareMask 3)
        ((P+1) * (2*P+3) + (P+1)) ≤
      insideField P (2*P+3) (2*P+3) (fullSquareMask 3) ((P+1) * (2*P+3) + x) +
        ((x : ℚ) - ((P+1 : ℕ) : ℚ)) ^ 2 := by
    intro x hx
    rw [hInSelf, insideField_row_center hP hx]
    by_cases hink : P ≤ x ∧ x < P + 3
    · rw [if_pos hink]
      have hsq := sq_nonneg ((x:ℚ) - ((P+1 : ℕ) : ℚ))
      linarith
    · rw [if_neg hink]
      have hd : (4:ℚ) ≤ ((x:ℚ) - ((P+1 : ℕ) : ℚ)) ^ 2 := by
        push_cast
        rcases (show x + 2 ≤ P + 1 ∨ P + 3 ≤ x from by omega) with hlo | hhi
        · have hq : (x:ℚ) + 2 ≤ (P:ℚ) + 1 := by exact_mod_cast hlo
          nlinarith
        · have hq : (P:ℚ) + 3 ≤ (x:ℚ) := by exact_mod_cast hhi
          nlinarith
      linarith
  have hInMin : rowMinDist (insideField P (2*P+3) (2*P+3) (fullSquareMask 3))
      (2*P+3) (P+1) (P+1) = 4 := by
    rw [rowMinDist_eq _ _ _ _ hInLb, hInSelf]
  unfold sdfPixelByte
  congr 1
  have hsig : sdfSigned P (2*P+3) (2*P+3) (fullSquareMask 3) (P+1) (P+1) =
      4 / (P:ℚ)^2 := by
    unfold sdfSigned
    dsimp only
    rw [hOutMin, hInMin, zero_div,
      show qClamp (0:ℚ) 0 1 = 0 from by unfold qClamp; norm_num,
      if_neg (lt_irrefl 0)]
    unfold qClamp
    have h1 : 4 / (P:ℚ)^2 ≤ 1 := by
      rw [div_le_one hpos]
      linarith
    have h0 : (0:ℚ) ≤ 4 / (P:ℚ)^2 := by positivity
    rw [max_eq_right h0, min_eq_right h1]
  rw [hsig]

/-- C5 — In SDF mode, on the synthetic fully-inked 3×3 square glyph with
padding `P`, the pixel at the exact centre of the padding ring's outer
edge encodes normalized signed distance `-1` (byte `0`, saturated
outside); the centre pixel, one unit inside the ink boundary, encodes a
byte strictly greater than the midpoint `128` when `1 < P` — but, against
the claim's unconditional reading, only up to `P = 22`: the amended bound
is `1 < P ≤ 22` (for `P ≥ 23` the inside distance `4/P²` rounds down to
the midpoint itself, see the counterexample). -/
theorem sdf_boundary_property (P : ℕ) (hP : 1 ≤ P) :
    sdfSigned P (2*P+3) (2*P+3) (fullSquareMask 3) (P+1) 0 = -1 ∧
    sdfPixelByte P (2*P+3) (2*P+3) (fullSquareMask 3) (P+1) 0 = 0 ∧
    (1 < P → P ≤ 22 →
      128 < sdfPixelByte P (2*P+3) (2*P+3) (fullSquareMask 3) (P+1) (P+1)) := by
  refine ⟨sdf_edge_signed P hP, sdf_edge_byte P hP, fun h1 h22 => ?_⟩
  rw [sdf_center_byte P h1]
  set q := (4 / (P:ℚ)^2 + 1) / 2 * 255 with hqdef
  have hpos : (0:ℚ) < (P:ℚ)^2 := by
    have h0 : (0:ℚ) < (P:ℚ) := by exact_mod_cast (show 0 < P from by omega)
    exact pow_pos h0 2
  have hq0 : 0 ≤ q := by
    rw [hqdef]
    positivity
  unfold u8Round rustRound intToU8
  rw [if_pos hq0]
  have h129 : (129:ℤ) ≤ ⌊q + 1/2⌋ := by
    rw [Int.le_floor]
    push_cast
    rw [hqdef]
    have hn : P^2 ≤ 484 := by
      have hpp := Nat.pow_le_pow_left h22 2
      norm_num at hpp
      exact hpp
    have h510 : ((P:ℚ))^2 ≤ 510 := by
      have hq2 : ((P:ℚ))^2 ≤ 484 := by exact_mod_cast hn
      linarith
    have hr : (4:ℚ)/510 ≤ 4/(P:ℚ)^2 := by
      rw [div_le_div_iff (by norm_num) hpos]
      linarith
    linarith
  omega

/-- C5 counterexample — at `P = 23` (padded size `49`), the centre pixel
of the synthetic fully-inked square is encoded as exactly the midpoint
byte `128`, refuting "strictly greater than 128" for all `P > 1`. -/
theorem sdf_inner_pixel_saturates :
    sdfPixelByte 23 49 49 (fullSquareMask 3) 24 24 = 128 ∧
    ¬ 128 < sdfPixelByte 23 49 49 (fullSquareMask 3) 24 24 := by
  have h : sdfPixelByte 23 49 49 (fullSquareMask 3) 24 24 = 128 := by
    have hc := sdf_center_byte 23 (by norm_num)
    norm_num at hc
    rw [hc]
    norm_num [u8Round, rustRound, intToU8]
    decide
  exact ⟨h, by rw [h]; exact lt_irrefl 128⟩

/-- Witness for C5: the amended theorem applied at the concrete padding
`P = 2`. -/
theorem sdf_boundary_property_witness :
    sdfSigned 2 (2*2+3) (2*2+3) (fullSquareMask 3) (2+1) 0 = -1 ∧
    sdfPixelByte 2 (2*2+3) (2*2+3) (fullSquareMask 3) (2+1) 0 = 0 ∧
    128 < sdfPixelByte 2 (2*2+3) (2*2+3) (fullSquareMask 3) (2+1) (2+1) := by
  obtain ⟨ha, hb, hcc⟩ := sdf_boundary_property 2 (by norm_num)
  exact ⟨ha, hb, hcc (by norm_num) (by norm_num)⟩

end RasterFonts
